import Mathlib

/-!
A verification development for the LunaFrost chapter-ordering core:
`add_chapter_atomic`, `delete_chapter`, `sort_chapters_by_number`,
`extract_episode_id_from_url` and `parse_chapter_number`, embedded as pure
functions over an explicit database state.  Python integers are modelled by
`Int`/`Nat`; Python floats produced by `float(...)` on decimal literals are
modelled exactly by `ℚ`; SQL transactions (commit on success, rollback on
exception, as in `db_session_scope`) are modelled by `Except`.
-/

namespace LunaFrost

/-- Decimal digits to a natural number, as `int(...)` does on a digit string. -/
def digitsToNat (ds : List Char) : Nat :=
  ds.foldl (fun n c => 10 * n + (c.toNat - 48)) 0

/-- The literal pattern searched for by `re.search(r'/viewer/(\d+)', ...)`. -/
def viewerMarker : List Char := "/viewer/".toList

/-- Left-to-right scan for the first position where `/viewer/` is followed by at
least one digit; returns the maximal digit run there (greedy `\d+`), as
`re.search(r'/viewer/(\d+)', source_url)` does. -/
def scanViewer : List Char → Option Nat
  | [] => none
  | c :: rest =>
    if viewerMarker = (c :: rest).take 8 then
      let ds := ((c :: rest).drop 8).takeWhile Char.isDigit
      if ds.isEmpty then scanViewer rest else some (digitsToNat ds)
    else scanViewer rest

/-- `extract_episode_id_from_url` from `database/db_novel.py`: `None`/empty URLs
(falsy) yield `none`; otherwise the first `/viewer/<digits>` match parsed as an
integer. -/
def extract_episode_id_from_url : Option String → Option Nat
  | none => none
  | some s => if s.isEmpty then none else scanViewer s.toList

/-- Strip leading and trailing whitespace, as Python `float(...)` does. -/
def stripEnds (l : List Char) : List Char :=
  ((l.dropWhile Char.isWhitespace).reverse.dropWhile Char.isWhitespace).reverse

/-- Split a list at the first character satisfying `p`; `none` if absent. -/
def splitFirst (p : Char → Bool) : List Char → Option (List Char × List Char)
  | [] => none
  | x :: xs =>
    if p x then some ([], xs)
    else
      match splitFirst p xs with
      | none => none
      | some (a, b) => some (x :: a, b)

def allDigits (l : List Char) : Bool := l.all Char.isDigit

def parseNatDigits (l : List Char) : Option Nat :=
  if l.isEmpty then none
  else if allDigits l then some (digitsToNat l)
  else none

/-- Consume an optional leading sign; returns (isNegative, rest). -/
def parseSign : List Char → (Bool × List Char)
  | '-' :: r => (true, r)
  | '+' :: r => (false, r)
  | l => (false, l)

/-- `<digits>[.<digits>]` with at least one digit overall, as an exact rational. -/
def parseMantissa (l : List Char) : Option ℚ :=
  match splitFirst (fun c => c = '.') l with
  | none => (parseNatDigits l).map (fun n => (n : ℚ))
  | some (a, b) =>
    if allDigits a && allDigits b && !(a.isEmpty && b.isEmpty) then
      some ((digitsToNat (a ++ b) : ℚ) / (10 : ℚ) ^ b.length)
    else none

def parseExpPart (l : List Char) : Option Int :=
  let (neg, r) := parseSign l
  (parseNatDigits r).map (fun n => if neg then -(n : Int) else (n : Int))

/-- Model of Python `float(num_str)` restricted to finite decimal notation
`[±]digits[.digits][(e|E)[±]digits]` (the forms chapter numbers take); the
value is kept exactly as a rational instead of being rounded to binary
floating point, which preserves all order comparisons made by the code on
such inputs.  Non-decimal spellings (`inf`, `nan`, underscores) are rejected,
landing in the same `ValueError` branch as any other unparsable string. -/
def pyFloat (s : String) : Option ℚ :=
  let l := stripEnds s.toList
  let (neg, r) := parseSign l
  match splitFirst (fun c => c = 'e' || c = 'E') r with
  | none => (parseMantissa r).map (fun q => if neg then -q else q)
  | some (m, e) =>
    match parseMantissa m, parseExpPart e with
    | some q, some ex => some ((if neg then -q else q) * (10 : ℚ) ^ ex)
    | _, _ => none

/-- `parse_chapter_number` from `database/db_novel.py`: falsy (missing/empty),
`'BONUS'`, or unparsable chapter numbers become the sentinel `999999.0`. -/
def parse_chapter_number : Option String → ℚ
  | none => 999999
  | some s =>
    if s.isEmpty then 999999
    else if s = "BONUS" then 999999
    else
      match pyFloat s with
      | some q => q
      | none => 999999

structure ChapterRow where
  id : Nat
  novel_id : Nat
  slug : String
  chapter_number : Option String
  source_url : Option String
  position : Int
  deriving Repr, DecidableEq

structure NovelRow where
  id : Nat
  user_id : String
  slug : String
  deriving Repr, DecidableEq

/-- The mutable store: novel rows, chapter rows, and the chapter primary-key
sequence. -/
structure DB where
  novels : List NovelRow
  chapters : List ChapterRow
  next_chapter_id : Nat
  deriving Repr, DecidableEq

/-- The `chapter_data` payload handed to `add_chapter_atomic` (the fields the
ordering core reads; `.get` on an absent key is `none`). -/
structure ChapterData where
  slug : String
  chapter_number : Option String
  source_url : Option String
  position : Option Int
  deriving Repr, DecidableEq

/-- The result dict built by `add_chapter_atomic` (the insert path has no
`already_exists` key, i.e. falsy: modelled as `false`). -/
structure AddResult where
  success : Bool
  already_exists : Bool
  chapter_index : Int
  chapter_id : Nat
  deriving Repr, DecidableEq

/-- Python truthiness of an optional string: `None` and `''` are falsy. -/
def truthy : Option String → Bool
  | none => false
  | some s => !s.isEmpty

/-- `session.query(Novel).filter(user_id == .., slug == ..).first()`. -/
def findNovel (db : DB) (uid slug : String) : Option NovelRow :=
  (db.novels.filter (fun n => n.user_id == uid && n.slug == slug)).head?

/-- `session.query(Chapter).filter_by(novel_id=nid)`: the chapter rows of one
novel. -/
def novelChapters (db : DB) (nid : Nat) : List ChapterRow :=
  db.chapters.filter (fun c => c.novel_id == nid)

/-- `.order_by(Chapter.position)`: ascending by position.  `insertionSort` is a
stable sort, matching Python's `sorted`; on the distinct keys the store
maintains, any correct ORDER BY agrees with it. -/
def sortByPosAsc (l : List ChapterRow) : List ChapterRow :=
  l.insertionSort (fun a b => a.position ≤ b.position)

/-- `.order_by(Chapter.position.desc())`: descending by position. -/
def sortByPosDesc (l : List ChapterRow) : List ChapterRow :=
  l.insertionSort (fun a b => b.position ≤ a.position)

/-- The positions held by a novel's chapters, in store order. -/
def posList (db : DB) (nid : Nat) : List Int :=
  (novelChapters db nid).map (fun c => c.position)

/-- The episode-id scan: index of the first existing chapter (ascending
position order) whose URL yields an episode id strictly greater than `k`;
chapters with no episode id are skipped; falls through to the list length
(append). -/
def findInsertIdxEp (k : Nat) : List ChapterRow → Nat
  | [] => 0
  | ch :: rest =>
    match extract_episode_id_from_url ch.source_url with
    | none => 1 + findInsertIdxEp k rest
    | some k2 => if k < k2 then 0 else 1 + findInsertIdxEp k rest

/-- The fallback scan over parsed chapter numbers: index of the first existing
chapter whose parsed number is strictly greater than `q`, else the length. -/
def findInsertIdxNum (q : ℚ) : List ChapterRow → Nat
  | [] => 0
  | ch :: rest =>
    if q < parse_chapter_number ch.chapter_number then 0
    else 1 + findInsertIdxNum q rest

/-- The insertion index `add_chapter_atomic` computes when no explicit position
was supplied: episode-id scan if the new URL parses, else the
chapter-number fallback scan. -/
def computeInsertPos (cd : ChapterData) (existing : List ChapterRow) : Nat :=
  match extract_episode_id_from_url cd.source_url with
  | some k => findInsertIdxEp k existing
  | none => findInsertIdxNum (parse_chapter_number cd.chapter_number) existing

/-- Pass 1 temporary position: `-(ch.position + 1000)`. -/
def tempPos (p : Int) : Int := -(p + 1000)

/-- Pass 2 recovery: `abs(ch.position) - 1000 + 1`, computed from the current
(temporary) position. -/
def restoredPos (p : Int) : Int := (p.natAbs : Int) - 1000 + 1

/-- The filter `and_(Chapter.novel_id == novel.id, Chapter.position >= insert_pos)`
selecting the rows to shift. -/
def shiftPred (nid ip : Nat) (c : ChapterRow) : Bool :=
  c.novel_id == nid && decide ((ip : Int) ≤ c.position)

/-- The mid-sequence shift of `add_chapter_atomic`: rows of the novel with
`position >= insert_pos` (loaded ordered by position descending) are moved to
temporary negative positions, flushed, then moved to their final positions
recovered from the temporaries.  Rows are identified by primary key. -/
def shiftTwoPass (db : DB) (nid : Nat) (ip : Nat) : DB :=
  let chaptersToShift := sortByPosDesc (db.chapters.filter (shiftPred nid ip))
  let shiftIds := chaptersToShift.map (fun c => c.id)
  let pass1 := db.chapters.map
    (fun c => if shiftIds.contains c.id then { c with position := tempPos c.position } else c)
  let pass2 := pass1.map
    (fun c => if shiftIds.contains c.id then { c with position := restoredPos c.position } else c)
  { db with chapters := pass2 }

/-- Modelled from the spec: uniqueness of `position` within a parent "holds at
the end of every transaction" (§3); the schema module `database/db_models.py`
declaring the constraint is not among the sources, so the constraint is
checked here at commit time for the novel the transaction touched. -/
def positionsUniqueOK (db : DB) (nid : Nat) : Prop :=
  (posList db nid).Nodup

instance (db : DB) (nid : Nat) : Decidable (positionsUniqueOK db nid) := by
  unfold positionsUniqueOK; infer_instance

/-- The idempotency check: with a truthy `source_url`, the first chapter row of
the novel carrying the same `source_url`. -/
def dupCheck (db : DB) (nid : Nat) (cd : ChapterData) : Option ChapterRow :=
  if truthy cd.source_url then
    (db.chapters.filter
      (fun c => c.novel_id == nid && c.source_url == cd.source_url)).head?
  else none

/-- The `position is None` branch: sequence the insertion index over the
existing chapters in ascending position order, and shift when the insert is
mid-sequence (`insert_pos < len(existing_chapters)`). -/
def seqAndShift (db : DB) (nid : Nat) (cd : ChapterData) : DB × Int :=
  let existing_chapters := sortByPosAsc (novelChapters db nid)
  let insert_pos := computeInsertPos cd existing_chapters
  if insert_pos < existing_chapters.length then
    (shiftTwoPass db nid insert_pos, (insert_pos : Int))
  else (db, (insert_pos : Int))

/-- `session.add(new_chapter); session.flush()`: the new row, with the next
primary key. -/
def insertRow (db : DB) (nid : Nat) (cd : ChapterData) (pos : Int) : DB × ChapterRow :=
  let newc : ChapterRow :=
    { id := db.next_chapter_id, novel_id := nid, slug := cd.slug,
      chapter_number := cd.chapter_number, source_url := cd.source_url,
      position := pos }
  ({ db with chapters := db.chapters ++ [newc],
             next_chapter_id := db.next_chapter_id + 1 }, newc)

/-- `add_chapter_atomic(user_id, novel_slug, chapter_data)` from
`database/db_novel.py`: novel lookup (ValueError if absent), idempotency check
on a truthy `source_url`, explicit position used verbatim, otherwise the
sequenced index with the two-pass shift for mid-sequence inserts, then the new
row is inserted.  `Except.error` models an exception aborting (rolling back)
the transaction. -/
def add_chapter_atomic (uid novel_slug : String) (cd : ChapterData) (db : DB) :
    Except String (DB × AddResult) :=
  match findNovel db uid novel_slug with
  | none => Except.error ("Novel not found: " ++ novel_slug)
  | some novel =>
    match dupCheck db novel.id cd with
    | some existing =>
      Except.ok (db,
        { success := true, already_exists := true,
          chapter_index := existing.position, chapter_id := existing.id })
    | none =>
      let st :=
        match cd.position with
        | some p => (db, p)
        | none => seqAndShift db novel.id cd
      let ins := insertRow st.1 novel.id cd st.2
      if positionsUniqueOK ins.1 novel.id then
        Except.ok (ins.1,
          { success := true, already_exists := false,
            chapter_index := st.2, chapter_id := ins.2.id })
      else Except.error "IntegrityError: duplicate position"

/-- The store after an `add_chapter_atomic` call: committed on success, rolled
back (unchanged) when the transaction raised. -/
def runAdd (uid novel_slug : String) (cd : ChapterData) (db : DB) : DB :=
  match add_chapter_atomic uid novel_slug cd db with
  | Except.ok (db2, _) => db2
  | Except.error _ => db

/-- A chapter dict as `sort_chapters_by_number` sees it: `ch.get('position',
999999)` may find the key missing. -/
structure ChapterDict where
  id : Nat
  position : Option Int
  deriving Repr, DecidableEq

/-- `ch.get('position', 999999)`. -/
def posKey (ch : ChapterDict) : Int := ch.position.getD 999999

/-- `sort_chapters_by_number(chapters, order)`: drop `None` entries, then a
stable sort on the position key, reversed comparisons when `order == 'desc'`
(Python's `sorted` keeps equal-key elements in input order in both
directions; `insertionSort` matches this). -/
def sort_chapters_by_number (chapters : List (Option ChapterDict)) (order : String) :
    List ChapterDict :=
  let valid := chapters.filterMap id
  if order == "desc" then valid.insertionSort (fun a b => posKey b ≤ posKey a)
  else valid.insertionSort (fun a b => posKey a ≤ posKey b)

/-- The dict view of a chapter row (the fields the delete path reads). -/
def toView (c : ChapterRow) : ChapterDict := { id := c.id, position := some c.position }

/-- First index at which a row with primary key `tid` sits in a list. -/
def idxOfId (tid : Nat) : List ChapterRow → Option Nat
  | [] => none
  | c :: l => if c.id == tid then some 0 else (idxOfId tid l).map (fun k => k + 1)

/-- The renormalization write: a row found in `remaining` takes its index there
as its new position (`for idx, ch in enumerate(remaining_chapters): ch.position
= idx`); rows not in `remaining` are untouched. -/
def renumFun (remaining : List ChapterRow) (c : ChapterRow) : ChapterRow :=
  match idxOfId c.id remaining with
  | some k => { c with position := (k : Int) }
  | none => c

/-- `delete_chapter(user_id, novel_slug, chapter_index)` from
`models/novel.py`: chapters are loaded ordered by position, sorted by the
display order (`order`, from the novel override or the user settings), the
`chapter_index`-th displayed chapter's row is deleted, and the remaining rows
of the novel, in ascending current-position order, are renumbered `0..N-1`
(writes where the position already matches are skipped, which leaves the same
state).  Returns whether a deletion happened, with the resulting store. -/
def delete_chapter (uid novel_slug : String) (chapter_index : Nat) (order : String)
    (db : DB) : Bool × DB :=
  match findNovel db uid novel_slug with
  | none => (false, db)
  | some novel =>
    let chapters := sortByPosAsc (novelChapters db novel.id)
    if chapters.isEmpty then (false, db)
    else
      let sorted_chapters :=
        sort_chapters_by_number (chapters.map (fun c => some (toView c))) order
      if h : chapter_index < sorted_chapters.length then
        let target := sorted_chapters.get ⟨chapter_index, h⟩
        let db1 : DB :=
          { db with chapters := db.chapters.eraseP (fun c => c.id == target.id) }
        let remaining := sortByPosAsc (novelChapters db1 novel.id)
        let db2 : DB :=
          { db1 with chapters := db1.chapters.map (renumFun remaining) }
        (true, db2)
      else (false, db)

/-- One completed client operation on the chapter store. -/
inductive Op where
  | add (uid slug : String) (cd : ChapterData)
  | del (uid slug : String) (idx : Nat) (order : String)
  deriving Repr, DecidableEq

def runOp (db : DB) : Op → DB
  | Op.add uid slug cd => runAdd uid slug cd db
  | Op.del uid slug idx order => (delete_chapter uid slug idx order db).2

def runOps (db : DB) (ops : List Op) : DB := ops.foldl runOp db

/-- The canonical embedding of list indices into stored (integer) positions. -/
def castI (k : Nat) : Int := (k : Int)

/-- The core invariant: a novel with `N` chapters holds exactly the positions
`{0, ..., N-1}`. -/
def contiguous (db : DB) (nid : Nat) : Prop :=
  (posList db nid).Perm ((List.range (novelChapters db nid).length).map castI)

instance (db : DB) (nid : Nat) : Decidable (contiguous db nid) := by
  unfold contiguous; infer_instance

/-- Store well-formedness: chapter primary keys are distinct and below the
key sequence value. -/
def WF (db : DB) : Prop :=
  (db.chapters.map (fun c => c.id)).Nodup ∧
    ∀ c ∈ db.chapters, c.id < db.next_chapter_id

instance (db : DB) : Decidable (WF db) := by
  unfold WF; infer_instance

/-- Quiescent-state invariant over the whole store. -/
def Inv (db : DB) : Prop := WF db ∧ ∀ nid, contiguous db nid

/-- An insert that does not supply an explicit caller position. -/
def noExplicitPos : Op → Prop
  | Op.add _ _ cd => cd.position = none
  | Op.del _ _ _ _ => True

instance : ∀ op : Op, Decidable (noExplicitPos op) := by
  intro op; cases op <;> (unfold noExplicitPos; infer_instance)

/-- The rows pass 1 walks: positions `>= insert_pos`, descending
(`order_by(Chapter.position.desc())`). -/
def shiftQueue (ip : Nat) (cs : List Int) : List Int :=
  (cs.filter (fun p => (ip : Int) ≤ p)).insertionSort (fun a b => b ≤ a)

/-- Positions after the first `k` row updates of pass 1: the `k` first queue
entries are at their temporary positions. -/
def pass1State (ip : Nat) (cs : List Int) (k : Nat) : List Int :=
  cs.map (fun p => if p ∈ (shiftQueue ip cs).take k then tempPos p else p)

/-- Positions after pass 1 and the first `k` row updates of pass 2: the `k`
first queue entries restored (the code recomputes them from the temporary
value), the rest of the queue still temporary. -/
def pass2State (ip : Nat) (cs : List Int) (k : Nat) : List Int :=
  cs.map (fun p =>
    if p ∈ (shiftQueue ip cs).take k then restoredPos (tempPos p)
    else if p ∈ shiftQueue ip cs then tempPos p
    else p)

/-- The net per-row effect of the two passes: selected rows move one position
up, other rows are untouched. -/
def shiftFun (nid ip : Nat) (c : ChapterRow) : ChapterRow :=
  if shiftPred nid ip c then { c with position := c.position + 1 } else c

/-- Written from the spec's words (§4.1 step 2), to be compared with the
implementation: the index of the first existing chapter whose ordering key is
defined and strictly greater than the new key — chapters with an undefined key
are skipped — else the number of existing chapters. -/
def specOrderingIdx (k : Nat) (existing : List ChapterRow) : Nat :=
  (existing.findIdx? (fun ch =>
    match extract_episode_id_from_url ch.source_url with
    | some k2 => decide (k < k2)
    | none => false)).getD existing.length

/-- Written from the spec's words (§4.1 step 3): the same first-strictly-greater
scan over parsed chapter numbers. -/
def specFallbackIdx (q : ℚ) (existing : List ChapterRow) : Nat :=
  (existing.findIdx? (fun ch => decide (q < parse_chapter_number ch.chapter_number))).getD
    existing.length

/-- A chapter payload whose URL carries episode id `k`. -/
def cdEp (k : Nat) (slg : String) : ChapterData :=
  { slug := slg, chapter_number := none,
    source_url := some ("https://novelpia.com/viewer/" ++ toString k), position := none }

/-- One novel (`id 1`, owner `"u"`, slug `"n"`), no chapters yet. -/
def dbOneNovel : DB :=
  { novels := [{ id := 1, user_id := "u", slug := "n" }], chapters := [],
    next_chapter_id := 1 }

def dbNoNovels : DB := { novels := [], chapters := [], next_chapter_id := 1 }

/-- Episode ids `[100, 300, 500]` at positions `[0, 1, 2]`. -/
def dbThreeEp : DB :=
  { novels := [{ id := 1, user_id := "u", slug := "n" }],
    chapters := [
      { id := 1, novel_id := 1, slug := "a", chapter_number := none,
        source_url := some "https://novelpia.com/viewer/100", position := 0 },
      { id := 2, novel_id := 1, slug := "b", chapter_number := none,
        source_url := some "https://novelpia.com/viewer/300", position := 1 },
      { id := 3, novel_id := 1, slug := "c", chapter_number := none,
        source_url := some "https://novelpia.com/viewer/500", position := 2 }],
    next_chapter_id := 4 }

/-- The `chapter_index` of a successful call. -/
def addIndex (e : Except String (DB × AddResult)) : Option Int :=
  match e with
  | Except.ok p => some p.2.chapter_index
  | Except.error _ => none

/-- A chapter row carrying only a textual chapter number. -/
def chNum (i : Nat) (num : String) (p : Int) : ChapterRow :=
  { id := i, novel_id := 1, slug := "c" ++ toString i, chapter_number := some num,
    source_url := none, position := p }

def cdNull : ChapterData :=
  { slug := "b", chapter_number := none, source_url := none, position := none }

/-- One novel already holding a chapter with no source identifier. -/
def rowNullUrl : ChapterRow :=
  { id := 1, novel_id := 1, slug := "a", chapter_number := none,
    source_url := none, position := 0 }

def dbNullUrl : DB :=
  { novels := [{ id := 1, user_id := "u", slug := "n" }],
    chapters := [rowNullUrl],
    next_chapter_id := 2 }

/-- The store after inserting episode `100` into the empty novel of
`dbOneNovel`. -/
def dbAfterFirst : DB :=
  { novels := [{ id := 1, user_id := "u", slug := "n" }],
    chapters := [
      { id := 1, novel_id := 1, slug := "a", chapter_number := none,
        source_url := some "https://novelpia.com/viewer/100", position := 0 }],
    next_chapter_id := 2 }

/-- Four chapters, ids `1..4`, positions `0..3`. -/
def dbFour : DB :=
  { novels := [{ id := 1, user_id := "u", slug := "n" }],
    chapters := [
      { id := 1, novel_id := 1, slug := "a", chapter_number := none,
        source_url := none, position := 0 },
      { id := 2, novel_id := 1, slug := "b", chapter_number := none,
        source_url := none, position := 1 },
      { id := 3, novel_id := 1, slug := "c", chapter_number := none,
        source_url := none, position := 2 },
      { id := 4, novel_id := 1, slug := "d", chapter_number := none,
        source_url := none, position := 3 }],
    next_chapter_id := 5 }

/-! ### Theorems -/

theorem restoredPos_tempPos (p : Int) (h : 0 ≤ p) : restoredPos (tempPos p) = p + 1 := by
  simp only [restoredPos, tempPos]
  omega

theorem mem_shiftQueue (ip : Nat) (cs : List Int) (p : Int) :
    p ∈ shiftQueue ip cs ↔ p ∈ cs ∧ (ip : Int) ≤ p := by
  simp [shiftQueue, List.mem_filter]

/-- C3: for a mid-sequence insert at index `i` into a novel whose chapters hold
pairwise distinct non-negative positions, the two-pass renumbering (pass 1:
every chapter with position `p >= i` moves to `-(p + 1000)`; pass 2: each such
chapter moves to `|temporary| - 1000 + 1`) produces exactly the state obtained
by directly setting each affected position from `p` to `p + 1`, and after every
individual row update of either pass the positions are pairwise distinct. -/
theorem two_pass_shift_correct (cs : List Int) (ip : Nat)
    (hnd : cs.Nodup) (hpos : ∀ p ∈ cs, 0 ≤ p) :
    pass2State ip cs (shiftQueue ip cs).length
        = cs.map (fun p => if (ip : Int) ≤ p then p + 1 else p)
      ∧ (∀ k, (pass1State ip cs k).Nodup)
      ∧ (∀ k, (pass2State ip cs k).Nodup) := by
  refine ⟨?_, ?_, ?_⟩
  · unfold pass2State
    rw [List.take_length]
    refine List.map_congr_left ?_
    intro p hp
    by_cases hip : (ip : Int) ≤ p
    · rw [if_pos ((mem_shiftQueue ip cs p).mpr ⟨hp, hip⟩), if_pos hip,
        restoredPos_tempPos p (hpos p hp)]
    · rw [if_neg (fun hm => hip ((mem_shiftQueue ip cs p).mp hm).2),
        if_neg (fun hm => hip ((mem_shiftQueue ip cs p).mp hm).2), if_neg hip]
  · intro k
    unfold pass1State
    refine List.Nodup.map_on ?_ hnd
    intro x hx y hy hxy
    have hx0 := hpos x hx
    have hy0 := hpos y hy
    by_cases h1 : x ∈ (shiftQueue ip cs).take k <;>
      by_cases h2 : y ∈ (shiftQueue ip cs).take k <;>
      simp only [h1, h2, if_true, if_false, tempPos] at hxy <;> omega
  · intro k
    unfold pass2State
    refine List.Nodup.map_on ?_ hnd
    intro x hx y hy hxy
    have hx0 := hpos x hx
    have hy0 := hpos y hy
    by_cases h1 : x ∈ (shiftQueue ip cs).take k
    · have hx1 : (ip : Int) ≤ x :=
        ((mem_shiftQueue ip cs x).mp (List.mem_of_mem_take h1)).2
      rw [if_pos h1, restoredPos_tempPos x hx0] at hxy
      by_cases h2 : y ∈ (shiftQueue ip cs).take k
      · rw [if_pos h2, restoredPos_tempPos y hy0] at hxy
        omega
      · rw [if_neg h2] at hxy
        by_cases h3 : y ∈ shiftQueue ip cs
        · rw [if_pos h3] at hxy
          simp only [tempPos] at hxy
          omega
        · rw [if_neg h3] at hxy
          have hy1 : ¬ (ip : Int) ≤ y :=
            fun hle => h3 ((mem_shiftQueue ip cs y).mpr ⟨hy, hle⟩)
          omega
    · rw [if_neg h1] at hxy
      by_cases h2 : y ∈ (shiftQueue ip cs).take k
      · have hy1 : (ip : Int) ≤ y :=
          ((mem_shiftQueue ip cs y).mp (List.mem_of_mem_take h2)).2
        rw [if_pos h2, restoredPos_tempPos y hy0] at hxy
        by_cases h3 : x ∈ shiftQueue ip cs
        · rw [if_pos h3] at hxy
          simp only [tempPos] at hxy
          omega
        · rw [if_neg h3] at hxy
          have hx1 : ¬ (ip : Int) ≤ x :=
            fun hle => h3 ((mem_shiftQueue ip cs x).mpr ⟨hx, hle⟩)
          omega
      · rw [if_neg h2] at hxy
        by_cases h3 : x ∈ shiftQueue ip cs <;> by_cases h4 : y ∈ shiftQueue ip cs <;>
          simp only [h3, h4, if_true, if_false, tempPos] at hxy <;> omega

/-- Witness for C3 at the concrete state with positions `[0, 1, 2]` and insert
index `1`. -/
theorem two_pass_shift_correct_witness :
    (([0, 1, 2] : List Int).Nodup ∧ ∀ p ∈ ([0, 1, 2] : List Int), 0 ≤ p) ∧
      (pass2State 1 [0, 1, 2] (shiftQueue 1 [0, 1, 2]).length
          = ([0, 1, 2] : List Int).map (fun p => if ((1 : Nat) : Int) ≤ p then p + 1 else p)
        ∧ (∀ k, (pass1State 1 [0, 1, 2] k).Nodup)
        ∧ (∀ k, (pass2State 1 [0, 1, 2] k).Nodup)) :=
  ⟨⟨by decide, by decide⟩, two_pass_shift_correct [0, 1, 2] 1 (by decide) (by decide)⟩

theorem filter_map_of_pres {α : Type} (F : α → α) (p : α → Bool) (l : List α)
    (h : ∀ x, p (F x) = p x) : (l.map F).filter p = (l.filter p).map F := by
  induction l with
  | nil => rfl
  | cons x t ih =>
    simp only [List.map_cons, List.filter_cons, h x]
    by_cases hx : p x = true
    · rw [if_pos hx, if_pos hx, List.map_cons, ih]
    · rw [if_neg hx, if_neg hx, ih]

theorem eraseP_filter_of_excl {α : Type} (q p : α → Bool) (l : List α)
    (h : ∀ x ∈ l, q x = true → p x = false) :
    (l.eraseP q).filter p = l.filter p := by
  induction l with
  | nil => rfl
  | cons x t ih =>
    by_cases hq : q x = true
    · rw [List.eraseP_cons_of_pos hq, List.filter_cons,
        if_neg (by simp [h x (List.mem_cons_self x t) hq])]
    · rw [List.eraseP_cons_of_neg (by simpa using hq), List.filter_cons, List.filter_cons,
        ih (fun y hy => h y (List.mem_cons_of_mem x hy))]

theorem eraseP_filter_of_incl {α : Type} (q p : α → Bool) (l : List α)
    (h : ∀ x ∈ l, q x = true → p x = true) :
    (l.eraseP q).filter p = (l.filter p).eraseP q := by
  induction l with
  | nil => rfl
  | cons x t ih =>
    by_cases hq : q x = true
    · have hp : p x = true := h x (List.mem_cons_self x t) hq
      rw [List.eraseP_cons_of_pos hq, List.filter_cons, if_pos hp,
        List.eraseP_cons_of_pos hq]
    · rw [List.eraseP_cons_of_neg (by simpa using hq), List.filter_cons, List.filter_cons]
      by_cases hp : p x = true
      · rw [if_pos hp, if_pos hp, List.eraseP_cons_of_neg (by simpa using hq),
          ih (fun y hy => h y (List.mem_cons_of_mem x hy))]
      · rw [if_neg hp, if_neg hp, ih (fun y hy => h y (List.mem_cons_of_mem x hy))]

/-- Shifting the tail `{ip, ..., N-1}` of `range N` up by one and re-adding
`ip` is a permutation of `range (N+1)`. -/
theorem range_insert_perm (N ip : Nat) (h : ip ≤ N) :
    (((List.range N).map (fun k => if ip ≤ k then k + 1 else k)) ++ [ip]).Perm
      (List.range (N + 1)) := by
  obtain ⟨m, rfl⟩ : ∃ m, N = ip + m := ⟨N - ip, by omega⟩
  rw [List.range_add, List.map_append]
  have h1 : (List.range ip).map (fun k => if ip ≤ k then k + 1 else k) = List.range ip := by
    have := List.map_congr_left (l := List.range ip)
      (f := fun k => if ip ≤ k then k + 1 else k) (g := id)
      (fun k hk => by
        have hk2 : k < ip := List.mem_range.mp hk
        simp only [id]
        rw [if_neg (by omega)])
    rw [this, List.map_id]
  have h2 : ((List.range m).map (fun x => ip + x)).map (fun k => if ip ≤ k then k + 1 else k)
      = (List.range m).map (fun j => ip + 1 + j) := by
    rw [List.map_map]
    exact List.map_congr_left (fun j _ => by
      simp only [Function.comp]
      rw [if_pos (by omega)]
      omega)
  rw [h1, h2]
  have h3 : List.range (ip + m + 1) = (List.range ip ++ [ip]) ++ (List.range m).map (fun j => ip + 1 + j) := by
    rw [show ip + m + 1 = (ip + 1) + m from by omega, List.range_add, List.range_succ]
  rw [h3, List.append_assoc, List.append_assoc]
  exact List.Perm.append_left _ List.perm_append_comm

theorem findInsertIdxEp_le (k : Nat) (l : List ChapterRow) :
    findInsertIdxEp k l ≤ l.length := by
  induction l with
  | nil => simp [findInsertIdxEp]
  | cons ch rest ih =>
    unfold findInsertIdxEp
    cases hE : extract_episode_id_from_url ch.source_url with
    | none => simp only [List.length_cons]; omega
    | some k2 =>
      by_cases h : k < k2
      · simp only [if_pos h, List.length_cons]; omega
      · simp only [if_neg h, List.length_cons]; omega

theorem findInsertIdxNum_le (q : ℚ) (l : List ChapterRow) :
    findInsertIdxNum q l ≤ l.length := by
  induction l with
  | nil => simp [findInsertIdxNum]
  | cons ch rest ih =>
    unfold findInsertIdxNum
    by_cases h : q < parse_chapter_number ch.chapter_number
    · simp only [if_pos h, List.length_cons]; omega
    · simp only [if_neg h, List.length_cons]; omega

theorem computeInsertPos_le (cd : ChapterData) (l : List ChapterRow) :
    computeInsertPos cd l ≤ l.length := by
  unfold computeInsertPos
  cases extract_episode_id_from_url cd.source_url with
  | none => exact findInsertIdxNum_le _ _
  | some k => exact findInsertIdxEp_le _ _

theorem contains_sorted_filter_ids {l : List ChapterRow}
    (hids : (l.map (fun c => c.id)).Nodup) (p : ChapterRow → Bool)
    (c : ChapterRow) (hc : c ∈ l) :
    ((sortByPosDesc (l.filter p)).map (fun c => c.id)).contains c.id = p c := by
  have hmem : c.id ∈ (sortByPosDesc (l.filter p)).map (fun x => x.id) ↔ p c = true := by
    constructor
    · intro h
      obtain ⟨c', hc', heq⟩ := List.mem_map.mp h
      have hc'2 : c' ∈ l.filter p := by
        simpa [sortByPosDesc, List.mem_insertionSort] using hc'
      have hc'3 := List.mem_filter.mp hc'2
      have hcc : c' = c := List.inj_on_of_nodup_map hids hc'3.1 hc heq
      rw [← hcc]; exact hc'3.2
    · intro h
      exact List.mem_map_of_mem _
        (by simp [sortByPosDesc, List.mem_insertionSort, List.mem_filter, hc, h])
  by_cases hp : p c = true
  · simp [List.contains, List.elem_eq_mem, hmem.mpr hp, hp]
  · have hnm : ¬ c.id ∈ (sortByPosDesc (l.filter p)).map (fun x => x.id) :=
      fun hm => hp (hmem.mp hm)
    simp only [List.contains, List.elem_eq_mem, decide_eq_true_eq]
    simp [hnm, Bool.not_eq_true] at hp ⊢
    exact hp

theorem shiftFun_keeps_id (nid ip : Nat) (c : ChapterRow) :
    (shiftFun nid ip c).id = c.id := by
  unfold shiftFun; by_cases h : shiftPred nid ip c = true <;> simp [h]

theorem shiftFun_keeps_novel (nid ip : Nat) (c : ChapterRow) :
    (shiftFun nid ip c).novel_id = c.novel_id := by
  unfold shiftFun; by_cases h : shiftPred nid ip c = true <;> simp [h]

theorem shiftFun_keeps_url (nid ip : Nat) (c : ChapterRow) :
    (shiftFun nid ip c).source_url = c.source_url := by
  unfold shiftFun; by_cases h : shiftPred nid ip c = true <;> simp [h]

theorem shiftFun_pos_of_novel (nid ip : Nat) (c : ChapterRow) (h : c.novel_id = nid) :
    (shiftFun nid ip c).position
      = if (ip : Int) ≤ c.position then c.position + 1 else c.position := by
  unfold shiftFun shiftPred
  by_cases hle : (ip : Int) ≤ c.position
  · rw [if_pos hle, if_pos (by simp [h, hle])]
  · rw [if_neg hle, if_neg (by simp [h, hle])]

/-- With distinct primary keys, the two passes compose to a single `+1` shift
of the selected rows. -/
theorem shiftTwoPass_chapters (db : DB) (nid ip : Nat)
    (hids : (db.chapters.map (fun c => c.id)).Nodup) :
    (shiftTwoPass db nid ip).chapters = db.chapters.map (shiftFun nid ip) := by
  unfold shiftTwoPass shiftFun
  simp only [List.map_map]
  refine List.map_congr_left ?_
  intro c hc
  have hcon := contains_sorted_filter_ids hids (shiftPred nid ip) c hc
  by_cases hp : shiftPred nid ip c = true
  · rw [hp] at hcon
    have h0 : (0 : Int) ≤ c.position := by
      have := (Bool.and_eq_true _ _).mp hp
      have h2 := of_decide_eq_true this.2
      omega
    simp only [Function.comp, hcon, if_true, if_pos, hp]
    simp only [restoredPos_tempPos c.position h0]
  · rw [Bool.not_eq_true] at hp
    rw [hp] at hcon
    simp only [Function.comp, hcon, Bool.false_eq_true, if_false, if_neg, hp]

theorem shiftTwoPass_novels (db : DB) (nid ip : Nat) :
    (shiftTwoPass db nid ip).novels = db.novels := rfl

theorem shiftTwoPass_next (db : DB) (nid ip : Nat) :
    (shiftTwoPass db nid ip).next_chapter_id = db.next_chapter_id := rfl

theorem novelChapters_shiftTwoPass (db : DB) (nid ip nid2 : Nat)
    (hids : (db.chapters.map (fun c => c.id)).Nodup) :
    novelChapters (shiftTwoPass db nid ip) nid2
      = (novelChapters db nid2).map (shiftFun nid ip) := by
  unfold novelChapters
  rw [shiftTwoPass_chapters db nid ip hids]
  exact filter_map_of_pres _ _ _ (fun x => by rw [shiftFun_keeps_novel])

theorem novelChapters_shiftTwoPass_other (db : DB) (nid ip nid2 : Nat)
    (hids : (db.chapters.map (fun c => c.id)).Nodup) (hne : nid2 ≠ nid) :
    novelChapters (shiftTwoPass db nid ip) nid2 = novelChapters db nid2 := by
  rw [novelChapters_shiftTwoPass db nid ip nid2 hids]
  have h : ∀ x ∈ novelChapters db nid2, shiftFun nid ip x = x := by
    intro x hx
    have hxn : x.novel_id = nid2 := by
      have := (List.mem_filter.mp hx).2
      simpa using this
    unfold shiftFun
    rw [if_neg (by simp [shiftPred, hxn, hne])]
  rw [List.map_congr_left h]
  simp

theorem posList_shiftTwoPass (db : DB) (nid ip : Nat)
    (hids : (db.chapters.map (fun c => c.id)).Nodup) :
    posList (shiftTwoPass db nid ip) nid
      = (posList db nid).map (fun p => if (ip : Int) ≤ p then p + 1 else p) := by
  unfold posList
  rw [novelChapters_shiftTwoPass db nid ip nid hids, List.map_map, List.map_map]
  refine List.map_congr_left ?_
  intro c hc
  have hxn : c.novel_id = nid := by
    have := (List.mem_filter.mp hc).2
    simpa using this
  simp only [Function.comp]
  exact shiftFun_pos_of_novel nid ip c hxn

theorem novelChapters_insertRow_same (db : DB) (nid : Nat) (cd : ChapterData) (pos : Int) :
    novelChapters (insertRow db nid cd pos).1 nid
      = novelChapters db nid ++ [(insertRow db nid cd pos).2] := by
  unfold novelChapters insertRow
  simp [List.filter_append]

theorem novelChapters_insertRow_other (db : DB) (nid nid2 : Nat) (cd : ChapterData)
    (pos : Int) (hne : nid2 ≠ nid) :
    novelChapters (insertRow db nid cd pos).1 nid2 = novelChapters db nid2 := by
  unfold novelChapters insertRow
  simp [List.filter_append, hne, Ne.symm hne]

theorem posList_insertRow_same (db : DB) (nid : Nat) (cd : ChapterData) (pos : Int) :
    posList (insertRow db nid cd pos).1 nid = posList db nid ++ [pos] := by
  unfold posList
  rw [novelChapters_insertRow_same]
  simp [insertRow]

/-- Well-formedness survives mapping an id-preserving function over the rows
followed by inserting a fresh row with the next primary key. -/
theorem WF_of_map_insert (db db2 : DB) (F : ChapterRow → ChapterRow) (newc : ChapterRow)
    (hF : ∀ c, (F c).id = c.id)
    (hch : db2.chapters = db.chapters.map F ++ [newc])
    (hnew : newc.id = db.next_chapter_id)
    (hnext : db2.next_chapter_id = db.next_chapter_id + 1)
    (hWF : WF db) : WF db2 := by
  obtain ⟨hnd, hbound⟩ := hWF
  constructor
  · rw [hch, List.map_append, List.map_map]
    have hmapid : db.chapters.map (fun c => (F c).id) = db.chapters.map (fun c => c.id) :=
      List.map_congr_left (fun c _ => hF c)
    refine ((List.perm_append_singleton _ _).nodup_iff).mpr ?_
    refine List.nodup_cons.mpr ⟨?_, ?_⟩
    · simp only [Function.comp_def, hmapid]
      intro hmem
      obtain ⟨c, hc, hid⟩ := List.mem_map.mp hmem
      have := hbound c hc
      omega
    · simpa only [Function.comp_def, hmapid] using hnd
  · intro c hc
    rw [hch] at hc
    rcases List.mem_append.mp hc with h | h
    · obtain ⟨c0, hc0, rfl⟩ := List.mem_map.mp h
      have := hbound c0 hc0
      rw [hF c0, hnext]
      omega
    · rw [List.mem_singleton.mp h, hnew, hnext]
      omega

/-- `novelChapters` determines `posList` and `contiguous`. -/
theorem contiguous_congr (db db2 : DB) (nid : Nat)
    (h : novelChapters db2 nid = novelChapters db nid) :
    contiguous db nid → contiguous db2 nid := by
  unfold contiguous posList
  rw [h]
  exact id

/-- A successful sequenced insert (no explicit position, no duplicate): the
call commits, reports the sequenced index, preserves well-formedness and
contiguity, grows the novel by one chapter carrying the payload's
`source_url`, and leaves every other novel's chapters untouched. -/
theorem add_insert_spec (uid slug : String) (cd : ChapterData) (db : DB) (n : NovelRow)
    (hfind : findNovel db uid slug = some n)
    (hdup : dupCheck db n.id cd = none)
    (hposnone : cd.position = none)
    (hWF : WF db)
    (hcont : contiguous db n.id) :
    ∃ db2 r, add_chapter_atomic uid slug cd db = Except.ok (db2, r)
      ∧ r.already_exists = false
      ∧ r.success = true
      ∧ r.chapter_index = ((computeInsertPos cd (sortByPosAsc (novelChapters db n.id)) : Nat) : Int)
      ∧ db2.novels = db.novels
      ∧ WF db2
      ∧ contiguous db2 n.id
      ∧ (novelChapters db2 n.id).length = (novelChapters db n.id).length + 1
      ∧ (∀ nid, nid ≠ n.id → novelChapters db2 nid = novelChapters db nid)
      ∧ ((novelChapters db2 n.id).map (fun c => c.source_url)).Perm
          (cd.source_url :: (novelChapters db n.id).map (fun c => c.source_url)) := by
  have hids := hWF.1
  set N := (novelChapters db n.id).length with hN
  set ec := sortByPosAsc (novelChapters db n.id) with hec
  have hecperm : ec.Perm (novelChapters db n.id) := List.perm_insertionSort _ _
  have hecN : ec.length = N := hecperm.length_eq
  set ip := computeInsertPos cd ec with hip
  have hipN : ip ≤ N := by
    have := computeInsertPos_le cd ec
    omega
  have hcastinj : Function.Injective castI := fun a b h => by
    simpa [castI] using h
  have hcastnodup : ((List.range (N + 1)).map castI).Nodup :=
    List.Nodup.map hcastinj (List.nodup_range _)
  by_cases hlt : ip < ec.length
  · -- mid-sequence insert: the two-pass shift runs
    have hseq : seqAndShift db n.id cd = (shiftTwoPass db n.id ip, (ip : Int)) := by
      simp only [seqAndShift]
      rw [← hec, ← hip, if_pos hlt]
    set dbS := shiftTwoPass db n.id ip with hdbS
    set ins := insertRow dbS n.id cd (ip : Int) with hins
    have hch2 : ins.1.chapters = dbS.chapters ++ [ins.2] := rfl
    have hnewc_nid : ins.2.novel_id = n.id := rfl
    have hnewc_id : ins.2.id = db.next_chapter_id := rfl
    have hnewc_url : ins.2.source_url = cd.source_url := rfl
    have hposS : posList dbS n.id
        = (posList db n.id).map (fun p => if (ip : Int) ≤ p then p + 1 else p) :=
      posList_shiftTwoPass db n.id ip hids
    have hpos2 : posList ins.1 n.id
        = (posList db n.id).map (fun p => if (ip : Int) ≤ p then p + 1 else p) ++ [(ip : Int)] := by
      rw [posList_insertRow_same, hposS]
    have hperm : (posList ins.1 n.id).Perm ((List.range (N + 1)).map castI) := by
      rw [hpos2]
      have step1 : ((posList db n.id).map (fun p => if (ip : Int) ≤ p then p + 1 else p)).Perm
          (((List.range N).map castI).map
            (fun p => if (ip : Int) ≤ p then p + 1 else p)) := hcont.map _
      have step2 : (((List.range N).map castI).map
            (fun p => if (ip : Int) ≤ p then p + 1 else p))
          = ((List.range N).map (fun k => if ip ≤ k then k + 1 else k)).map castI := by
        rw [List.map_map, List.map_map]
        refine List.map_congr_left ?_
        intro k _
        simp only [Function.comp, castI]
        by_cases hk : ip ≤ k
        · rw [if_pos (by exact_mod_cast hk), if_pos hk]
          push_cast
          ring
        · rw [if_neg (by exact_mod_cast hk), if_neg hk]
      have p1 : (((posList db n.id).map (fun p => if (ip : Int) ≤ p then p + 1 else p))
            ++ [(ip : Int)]).Perm
          ((((List.range N).map (fun k => if ip ≤ k then k + 1 else k)).map castI)
            ++ [(ip : Int)]) := by
        refine List.Perm.append_right _ ?_
        rw [← step2]
        exact step1
      have e2 : (((List.range N).map (fun k => if ip ≤ k then k + 1 else k)).map castI)
            ++ [(ip : Int)]
          = (((List.range N).map (fun k => if ip ≤ k then k + 1 else k)) ++ [ip]).map castI := by
        rw [List.map_append]
        rfl
      have p3 : ((((List.range N).map (fun k => if ip ≤ k then k + 1 else k)) ++ [ip]).map
            castI).Perm ((List.range (N + 1)).map castI) :=
        (range_insert_perm N ip hipN).map _
      exact p1.trans (by rw [e2]; exact p3)
    have hlen2 : (novelChapters ins.1 n.id).length = N + 1 := by
      rw [novelChapters_insertRow_same, List.length_append,
        novelChapters_shiftTwoPass db n.id ip n.id hids, List.length_map]
      simp [← hN]
    have hcontig2 : contiguous ins.1 n.id := by
      unfold contiguous
      rw [hlen2]
      exact hperm
    have hOK : positionsUniqueOK ins.1 n.id := by
      unfold positionsUniqueOK
      exact (hperm.nodup_iff).mpr hcastnodup
    have hadd : add_chapter_atomic uid slug cd db
        = Except.ok (ins.1,
            { success := true, already_exists := false,
              chapter_index := (ip : Int), chapter_id := ins.2.id }) := by
      unfold add_chapter_atomic
      rw [hfind]
      simp only [hdup, hposnone, hseq]
      rw [if_pos hOK]
    refine ⟨ins.1, _, hadd, rfl, rfl, rfl, rfl, ?_, hcontig2, hlen2, ?_, ?_⟩
    · exact WF_of_map_insert db ins.1 (shiftFun n.id ip) ins.2 (shiftFun_keeps_id n.id ip)
        (by rw [hch2, shiftTwoPass_chapters db n.id ip hids]) hnewc_id rfl hWF
    · intro nid hne
      rw [show ins.1 = (insertRow dbS n.id cd (ip : Int)).1 from rfl,
        novelChapters_insertRow_other dbS n.id nid cd (ip : Int) hne,
        novelChapters_shiftTwoPass_other db n.id ip nid hids hne]
    · rw [novelChapters_insertRow_same, List.map_append,
        novelChapters_shiftTwoPass db n.id ip n.id hids, List.map_map]
      have hurl : (novelChapters db n.id).map ((fun c => c.source_url) ∘ shiftFun n.id ip)
          = (novelChapters db n.id).map (fun c => c.source_url) :=
        List.map_congr_left (fun c _ => by
          simp only [Function.comp]
          exact shiftFun_keeps_url n.id ip c)
      rw [hurl]
      exact List.perm_append_singleton _ _
  · -- append: no shift needed
    have hipeq : ip = N := by omega
    have hseq : seqAndShift db n.id cd = (db, (ip : Int)) := by
      simp only [seqAndShift]
      rw [← hec, ← hip, if_neg hlt]
    set ins := insertRow db n.id cd (ip : Int) with hins
    have hch2 : ins.1.chapters = db.chapters ++ [ins.2] := rfl
    have hnewc_nid : ins.2.novel_id = n.id := rfl
    have hnewc_id : ins.2.id = db.next_chapter_id := rfl
    have hnewc_url : ins.2.source_url = cd.source_url := rfl
    have hpos2 : posList ins.1 n.id = posList db n.id ++ [(ip : Int)] :=
      posList_insertRow_same db n.id cd (ip : Int)
    have hperm : (posList ins.1 n.id).Perm ((List.range (N + 1)).map castI) := by
      rw [hpos2, hipeq]
      have p1 : (posList db n.id ++ [(N : Int)]).Perm
          (((List.range N).map castI) ++ [(N : Int)]) :=
        List.Perm.append_right _ hcont
      have e2 : ((List.range N).map castI) ++ [(N : Int)]
          = (List.range (N + 1)).map castI := by
        rw [List.range_succ, List.map_append]
        rfl
      exact e2 ▸ p1
    have hlen2 : (novelChapters ins.1 n.id).length = N + 1 := by
      rw [novelChapters_insertRow_same, List.length_append]
      simp [← hN]
    have hcontig2 : contiguous ins.1 n.id := by
      unfold contiguous
      rw [hlen2]
      exact hperm
    have hOK : positionsUniqueOK ins.1 n.id := by
      unfold positionsUniqueOK
      exact (hperm.nodup_iff).mpr hcastnodup
    have hadd : add_chapter_atomic uid slug cd db
        = Except.ok (ins.1,
            { success := true, already_exists := false,
              chapter_index := (ip : Int), chapter_id := ins.2.id }) := by
      unfold add_chapter_atomic
      rw [hfind]
      simp only [hdup, hposnone, hseq]
      rw [if_pos hOK]
    refine ⟨ins.1, _, hadd, rfl, rfl, rfl, rfl, ?_, hcontig2, hlen2, ?_, ?_⟩
    · exact WF_of_map_insert db ins.1 (fun c => c) ins.2 (fun _ => rfl)
        (by rw [hch2, List.map_id']) hnewc_id rfl hWF
    · intro nid hne
      exact novelChapters_insertRow_other db n.id nid cd (ip : Int) hne
    · rw [novelChapters_insertRow_same, List.map_append]
      exact List.perm_append_singleton _ _

theorem idxOfId_mem (x : ChapterRow) (l : List ChapterRow) (hx : x ∈ l) :
    ∃ k, idxOfId x.id l = some k := by
  induction l with
  | nil => cases hx
  | cons c t ih =>
    unfold idxOfId
    by_cases h : (c.id == x.id) = true
    · exact ⟨0, by rw [if_pos h]⟩
    · rcases List.mem_cons.mp hx with heq | hx2
      · exact absurd (by rw [heq]; simp) h
      · obtain ⟨k, hk⟩ := ih hx2
        exact ⟨k + 1, by rw [if_neg h, hk]; rfl⟩

theorem idxOfId_none (tid : Nat) (l : List ChapterRow)
    (h : ¬ tid ∈ l.map (fun c => c.id)) : idxOfId tid l = none := by
  induction l with
  | nil => rfl
  | cons c t ih =>
    have hne : (c.id == tid) = false := by
      by_cases hb : (c.id == tid) = true
      · have heq : c.id = tid := beq_iff_eq.mp hb
        refine absurd ?_ h
        rw [List.map_cons, ← heq]
        exact List.mem_cons_self _ _
      · simpa using hb
    unfold idxOfId
    rw [if_neg (by simp [hne]),
      ih (fun hm => h (by rw [List.map_cons]; exact List.mem_cons_of_mem _ hm))]
    rfl

theorem renumFun_keeps_id (remaining : List ChapterRow) (c : ChapterRow) :
    (renumFun remaining c).id = c.id := by
  unfold renumFun
  cases h : idxOfId c.id remaining <;> simp

theorem renumFun_keeps_novel (remaining : List ChapterRow) (c : ChapterRow) :
    (renumFun remaining c).novel_id = c.novel_id := by
  unfold renumFun
  cases h : idxOfId c.id remaining <;> simp

theorem renumFun_id_of_absent (remaining : List ChapterRow) (c : ChapterRow)
    (h : ¬ c.id ∈ remaining.map (fun c => c.id)) : renumFun remaining c = c := by
  unfold renumFun
  rw [idxOfId_none c.id remaining h]

/-- Renumbering a duplicate-free row list by self-lookup indices yields
positions `0, 1, ..., N-1` in list order. -/
theorem renum_positions (l : List ChapterRow)
    (hids : (l.map (fun c => c.id)).Nodup) :
    (l.map (renumFun l)).map (fun c => c.position) = (List.range l.length).map castI := by
  induction l with
  | nil => rfl
  | cons c t ih =>
    have hids2 : (c.id :: t.map (fun c => c.id)).Nodup := by simpa using hids
    have hnd := List.nodup_cons.mp hids2
    have hhead : (renumFun (c :: t) c).position = castI 0 := by
      simp [renumFun, idxOfId, castI]
    have htail : ∀ x ∈ t, (renumFun (c :: t) x).position = (renumFun t x).position + 1 := by
      intro x hx
      have hne : (c.id == x.id) = false := by
        by_cases hb : (c.id == x.id) = true
        · have heq : c.id = x.id := beq_iff_eq.mp hb
          refine absurd ?_ hnd.1
          rw [heq]
          exact List.mem_map_of_mem _ hx
        · simpa using hb
      obtain ⟨k, hk⟩ := idxOfId_mem x t hx
      have hstep : idxOfId x.id (c :: t) = some (k + 1) := by
        unfold idxOfId
        rw [if_neg (by simp [hne]), hk]
        rfl
      simp only [renumFun, hstep, hk]
      push_cast
      ring
    simp only [List.map_cons, List.length_cons, List.range_succ_eq_map, hhead]
    refine congrArg (fun tl => castI 0 :: tl) ?_
    rw [List.map_map, List.map_map]
    have e1 : t.map ((fun c => c.position) ∘ renumFun (c :: t))
        = t.map (fun x => (renumFun t x).position + 1) :=
      List.map_congr_left (fun x hx => htail x hx)
    have e2 : t.map (fun x => (renumFun t x).position + 1)
        = (t.map (fun x => (renumFun t x).position)).map (fun y => y + 1) := by
      rw [List.map_map]
      rfl
    have e3 : t.map (fun x => (renumFun t x).position) = (List.range t.length).map castI := by
      have := ih hnd.2
      rwa [List.map_map] at this
    rw [e1, e2, e3]
    simp only [List.map_map]
    refine List.map_congr_left ?_
    intro k _
    simp only [Function.comp, castI]
    push_cast
    ring

/-- Two sorted permutations of one another with duplicate-free keys are
equal. -/
theorem sorted_perm_unique {α : Type} (key : α → Int) (l1 l2 : List α)
    (hperm : l1.Perm l2)
    (h1 : l1.Pairwise (fun a b => key a ≤ key b))
    (h2 : l2.Pairwise (fun a b => key a ≤ key b))
    (hnd : (l1.map key).Nodup) : l1 = l2 := by
  have hnd2 : (l2.map key).Nodup := ((hperm.map key).nodup_iff).mp hnd
  have ne1 : l1.Pairwise (fun a b => key a ≠ key b) := List.pairwise_map.mp hnd
  have ne2 : l2.Pairwise (fun a b => key a ≠ key b) := List.pairwise_map.mp hnd2
  have lt1 : l1.Pairwise (fun a b => key a < key b) :=
    (h1.and ne1).imp (fun h => lt_of_le_of_ne h.1 h.2)
  have lt2 : l2.Pairwise (fun a b => key a < key b) :=
    (h2.and ne2).imp (fun h => lt_of_le_of_ne h.1 h.2)
  letI : IsAntisymm α (fun a b => key a < key b) :=
    ⟨fun _ _ hab hba => absurd hba (lt_asymm hab)⟩
  exact List.eq_of_perm_of_sorted hperm lt1 lt2

theorem novelChapters_ids_nodup (db : DB) (hWF : WF db) (nid : Nat) :
    ((novelChapters db nid).map (fun c => c.id)).Nodup :=
  List.Nodup.sublist (List.Sublist.map _ (List.filter_sublist _)) hWF.1

theorem filterMap_some_map {α β : Type} (f : α → β) (l : List α) :
    (l.map (fun a => some (f a))).filterMap id = l.map f := by
  induction l with
  | nil => rfl
  | cons a t ih => simp [ih]

/-- A successful `delete_chapter` call: it deletes exactly the row displayed at
`chapter_index`, renumbers the survivors `0..N-2` in ascending order of their
previous positions (preserving relative order), keeps every other novel's
chapters untouched, and preserves well-formedness and contiguity. -/
theorem delete_chapter_spec (uid slug : String) (idx : Nat) (order : String) (db : DB)
    (n : NovelRow)
    (hfind : findNovel db uid slug = some n)
    (hWF : WF db)
    (hnonempty : (sortByPosAsc (novelChapters db n.id)).isEmpty = false)
    (hidx : idx < (sort_chapters_by_number
        ((sortByPosAsc (novelChapters db n.id)).map (fun c => some (toView c))) order).length) :
    ∃ db2 c0,
      delete_chapter uid slug idx order db = (true, db2)
      ∧ c0 ∈ novelChapters db n.id
      ∧ toView c0 = (sort_chapters_by_number
          ((sortByPosAsc (novelChapters db n.id)).map (fun c => some (toView c))) order).get
            ⟨idx, hidx⟩
      ∧ WF db2
      ∧ contiguous db2 n.id
      ∧ (novelChapters db2 n.id).length = (novelChapters db n.id).length - 1
      ∧ (∀ nid, nid ≠ n.id → novelChapters db2 nid = novelChapters db nid)
      ∧ (sortByPosAsc (novelChapters db2 n.id)).map (fun c => c.id)
          = (sortByPosAsc ((novelChapters db n.id).eraseP (fun c => c.id == c0.id))).map
              (fun c => c.id)
      ∧ (sortByPosAsc (novelChapters db2 n.id)).map (fun c => c.position)
          = (List.range ((novelChapters db n.id).length - 1)).map castI := by
  set chapters := sortByPosAsc (novelChapters db n.id) with hchap
  set sorted := sort_chapters_by_number (chapters.map (fun c => some (toView c))) order
    with hsorted
  set target := sorted.get ⟨idx, hidx⟩ with htarget
  set db1 : DB := { db with chapters := db.chapters.eraseP (fun c => c.id == target.id) }
    with hdb1
  set remaining := sortByPosAsc (novelChapters db1 n.id) with hrem
  set db2 : DB := { db1 with chapters := db1.chapters.map (renumFun remaining) } with hdb2
  -- the target view comes from a concrete row of the novel
  have hvalid : (chapters.map (fun c => some (toView c))).filterMap id = chapters.map toView :=
    filterMap_some_map toView chapters
  have hsortedperm : sorted.Perm (chapters.map toView) := by
    rw [hsorted]
    unfold sort_chapters_by_number
    by_cases ho : (order == "desc") = true
    · rw [if_pos ho, hvalid]
      exact List.perm_insertionSort _ _
    · rw [if_neg ho, hvalid]
      exact List.perm_insertionSort _ _
  have htargetmem : target ∈ chapters.map toView :=
    hsortedperm.mem_iff.mp (sorted.get_mem _ _)
  obtain ⟨c0, hc0chap, hc0view⟩ := List.mem_map.mp htargetmem
  have hc0mem : c0 ∈ novelChapters db n.id := by
    rw [hchap] at hc0chap
    simpa [sortByPosAsc, List.mem_insertionSort] using hc0chap
  have hc0db : c0 ∈ db.chapters := (List.mem_filter.mp hc0mem).1
  have hc0nid : c0.novel_id = n.id := by
    have := (List.mem_filter.mp hc0mem).2
    simpa using this
  have hid_eq : target.id = c0.id := by rw [← hc0view]; rfl
  have hq : ∀ x ∈ db.chapters, (x.id == target.id) = true → x = c0 := by
    intro x hx hxb
    have hxe : x.id = c0.id := by rw [beq_iff_eq.mp hxb, hid_eq]
    exact List.inj_on_of_nodup_map hWF.1 hx hc0db hxe
  -- the call reduces to (true, db2)
  have hdel : delete_chapter uid slug idx order db = (true, db2) := by
    simp only [delete_chapter, hfind, hnonempty, Bool.false_eq_true, if_false]
    rw [dif_pos hidx]
  -- db1 : the erase step
  have hsub1 : db1.chapters.Sublist db.chapters := List.eraseP_sublist _
  have hWF1 : WF db1 :=
    ⟨List.Nodup.sublist (hsub1.map _) hWF.1, fun c hc => hWF.2 c (hsub1.subset hc)⟩
  have hNV1this : novelChapters db1 n.id
      = (novelChapters db n.id).eraseP (fun c => c.id == target.id) := by
    unfold novelChapters
    exact eraseP_filter_of_incl _ _ _ (fun x hx hqx => by rw [hq x hx hqx]; simp [hc0nid])
  have hNV1other : ∀ nid, nid ≠ n.id → novelChapters db1 nid = novelChapters db nid := by
    intro nid hne
    unfold novelChapters
    refine eraseP_filter_of_excl _ _ _ (fun x hx hqx => ?_)
    rw [hq x hx hqx]
    simp only [hc0nid]
    exact beq_eq_false_iff_ne.mpr (Ne.symm hne)
  have hc0q : ((fun c => c.id == target.id) c0) = true := by
    simp [hid_eq]
  have hlen1 : (novelChapters db1 n.id).length = (novelChapters db n.id).length - 1 := by
    rw [hNV1this]
    exact List.length_eraseP_of_mem hc0mem hc0q
  -- remaining : survivors in ascending old-position order
  have hremperm : remaining.Perm (novelChapters db1 n.id) := List.perm_insertionSort _ _
  have hremids : (remaining.map (fun c => c.id)).Nodup :=
    ((hremperm.map _).nodup_iff).mpr (novelChapters_ids_nodup db1 hWF1 n.id)
  have hremlen : remaining.length = (novelChapters db n.id).length - 1 :=
    hremperm.length_eq.trans hlen1
  -- db2 : the renumber step
  have hNV2 : ∀ nid, novelChapters db2 nid = (novelChapters db1 nid).map (renumFun remaining) := by
    intro nid
    unfold novelChapters
    exact filter_map_of_pres _ _ _ (fun x => by rw [renumFun_keeps_novel])
  have hNV2other : ∀ nid, nid ≠ n.id → novelChapters db2 nid = novelChapters db nid := by
    intro nid hne
    rw [hNV2 nid, ← hNV1other nid hne]
    have hident : ∀ x ∈ novelChapters db1 nid, renumFun remaining x = x := by
      intro x hx
      refine renumFun_id_of_absent _ _ (fun hmem => ?_)
      obtain ⟨y, hy, hyid⟩ := List.mem_map.mp hmem
      have hy1 : y ∈ novelChapters db1 n.id := hremperm.mem_iff.mp hy
      have hxy : x = y := List.inj_on_of_nodup_map hWF1.1
        (List.mem_filter.mp hx).1 (List.mem_filter.mp hy1).1 hyid.symm
      have hxn : x.novel_id = nid := by
        have := (List.mem_filter.mp hx).2
        simpa using this
      have hyn : y.novel_id = n.id := by
        have := (List.mem_filter.mp hy1).2
        simpa using this
      rw [hxy, hyn] at hxn
      exact hne hxn.symm
    rw [List.map_congr_left hident]
    simp
  have hWF2 : WF db2 := by
    constructor
    · have : db2.chapters.map (fun c => c.id) = db1.chapters.map (fun c => c.id) := by
        rw [hdb2]
        show (db1.chapters.map (renumFun remaining)).map (fun c => c.id)
          = db1.chapters.map (fun c => c.id)
        rw [List.map_map]
        exact List.map_congr_left (fun c _ => by
          simp only [Function.comp]
          exact renumFun_keeps_id remaining c)
      rw [this]
      exact hWF1.1
    · intro c hc
      rw [hdb2] at hc
      obtain ⟨c1, hc1, rfl⟩ := List.mem_map.mp hc
      have := hWF1.2 c1 hc1
      rw [renumFun_keeps_id]
      exact this
  have hR : (remaining.map (renumFun remaining)).map (fun c => c.position)
      = (List.range remaining.length).map castI := renum_positions remaining hremids
  have hpos2perm : (posList db2 n.id).Perm ((List.range remaining.length).map castI) := by
    unfold posList
    rw [hNV2 n.id]
    have hmm : ((novelChapters db1 n.id).map (renumFun remaining)).Perm
        (remaining.map (renumFun remaining)) := (hremperm.symm).map _
    refine (hmm.map _).trans ?_
    rw [hR]
  have hlen2 : (novelChapters db2 n.id).length = remaining.length := by
    rw [hNV2 n.id, List.length_map, ← hremperm.length_eq]
  have hcontig2 : contiguous db2 n.id := by
    unfold contiguous
    rw [hlen2]
    exact hpos2perm
  -- the sorted view of the result equals the renumbered survivor list
  have hperm3 : (sortByPosAsc (novelChapters db2 n.id)).Perm
      (remaining.map (renumFun remaining)) := by
    refine (List.perm_insertionSort _ _).trans ?_
    rw [hNV2 n.id]
    exact (hremperm.symm).map _
  have hRsorted : (remaining.map (renumFun remaining)).Pairwise
      (fun a b => a.position ≤ b.position) := by
    have hp : ((remaining.map (renumFun remaining)).map (fun c => c.position)).Pairwise
        (fun a b => a ≤ b) := by
      rw [hR]
      exact (List.pairwise_lt_range remaining.length).map _
        (fun a b h => by simp only [castI]; omega)
    exact List.pairwise_map.mp hp
  letI : IsTotal ChapterRow (fun a b => a.position ≤ b.position) := ⟨fun a b => le_total _ _⟩
  letI : IsTrans ChapterRow (fun a b => a.position ≤ b.position) :=
    ⟨fun a b c h1 h2 => le_trans h1 h2⟩
  have hLsorted : (sortByPosAsc (novelChapters db2 n.id)).Pairwise
      (fun a b => a.position ≤ b.position) := List.sorted_insertionSort _ _
  have hLnodup : ((sortByPosAsc (novelChapters db2 n.id)).map (fun c => c.position)).Nodup := by
    refine ((hperm3.map _).nodup_iff).mpr ?_
    rw [hR]
    exact List.Nodup.map (fun a b h => by simpa [castI] using h) (List.nodup_range _)
  have heqLR : sortByPosAsc (novelChapters db2 n.id) = remaining.map (renumFun remaining) :=
    sorted_perm_unique (fun c => c.position) _ _ hperm3 hLsorted hRsorted hLnodup
  -- assemble
  refine ⟨db2, c0, hdel, hc0mem, hc0view, hWF2, hcontig2,
    hlen2.trans hremlen, hNV2other, ?_, ?_⟩
  · rw [heqLR, List.map_map]
    have e1 : remaining.map ((fun c => c.id) ∘ renumFun remaining)
        = remaining.map (fun c => c.id) :=
      List.map_congr_left (fun c _ => by
        simp only [Function.comp]
        exact renumFun_keeps_id remaining c)
    rw [e1, hrem, hNV1this]
    have e2 : (fun c : ChapterRow => c.id == target.id) = (fun c => c.id == c0.id) :=
      funext (fun c => by rw [hid_eq])
    rw [e2]
  · rw [heqLR, hR, hremlen]

theorem add_notfound (uid slug : String) (cd : ChapterData) (db : DB)
    (h : findNovel db uid slug = none) :
    add_chapter_atomic uid slug cd db = Except.error ("Novel not found: " ++ slug) := by
  simp only [add_chapter_atomic, h]

theorem add_dup (uid slug : String) (cd : ChapterData) (db : DB) (n : NovelRow)
    (ex : ChapterRow)
    (hfind : findNovel db uid slug = some n)
    (hdup : dupCheck db n.id cd = some ex) :
    add_chapter_atomic uid slug cd db
      = Except.ok (db,
          { success := true, already_exists := true,
            chapter_index := ex.position, chapter_id := ex.id }) := by
  simp only [add_chapter_atomic, hfind, hdup]

theorem runAdd_preserves_Inv (uid slug : String) (cd : ChapterData) (db : DB)
    (hpos : cd.position = none) (hInv : Inv db) : Inv (runAdd uid slug cd db) := by
  unfold runAdd
  cases hfind : findNovel db uid slug with
  | none => rw [add_notfound uid slug cd db hfind]; exact hInv
  | some n =>
    cases hdup : dupCheck db n.id cd with
    | some ex => rw [add_dup uid slug cd db n ex hfind hdup]; exact hInv
    | none =>
      obtain ⟨db2, r, heq, _, _, _, _, hWF2, hcont2, _, hother, _⟩ :=
        add_insert_spec uid slug cd db n hfind hdup hpos hInv.1 (hInv.2 n.id)
      rw [heq]
      refine ⟨hWF2, fun nid => ?_⟩
      by_cases hne : nid = n.id
      · rw [hne]; exact hcont2
      · exact contiguous_congr db db2 nid (hother nid hne) (hInv.2 nid)

theorem runDel_preserves_Inv (uid slug : String) (idx : Nat) (order : String) (db : DB)
    (hInv : Inv db) : Inv (delete_chapter uid slug idx order db).2 := by
  cases hfind : findNovel db uid slug with
  | none => simp only [delete_chapter, hfind]; exact hInv
  | some n =>
    cases hem : (sortByPosAsc (novelChapters db n.id)).isEmpty with
    | true => simp [delete_chapter, hfind, hem]; exact hInv
    | false =>
      by_cases hidx : idx < (sort_chapters_by_number
          ((sortByPosAsc (novelChapters db n.id)).map (fun c => some (toView c))) order).length
      · obtain ⟨db2, c0, hdel, _, _, hWF2, hcont2, _, hother, _, _⟩ :=
          delete_chapter_spec uid slug idx order db n hfind hInv.1 hem hidx
        rw [hdel]
        refine ⟨hWF2, fun nid => ?_⟩
        by_cases hne : nid = n.id
        · rw [hne]; exact hcont2
        · exact contiguous_congr db db2 nid (hother nid hne) (hInv.2 nid)
      · simp only [delete_chapter, hfind, hem, Bool.false_eq_true, if_false, dif_neg hidx]
        exact hInv

theorem runOps_preserves_Inv (db : DB) (ops : List Op)
    (hInv : Inv db) (hops : ∀ op ∈ ops, noExplicitPos op) : Inv (runOps db ops) := by
  induction ops generalizing db with
  | nil => exact hInv
  | cons op rest ih =>
    have h1 : Inv (runOp db op) := by
      cases op with
      | add uid slug cd =>
        exact runAdd_preserves_Inv uid slug cd db (hops _ (List.mem_cons_self _ _)) hInv
      | del uid slug idx order => exact runDel_preserves_Inv uid slug idx order db hInv
    exact ih (runOp db op) h1 (fun o ho => hops o (List.mem_cons_of_mem _ ho))

theorem Inv_of_no_chapters (db : DB) (h : db.chapters = []) : Inv db := by
  refine ⟨⟨by rw [h]; exact List.nodup_nil, fun c hc => absurd hc (by rw [h]; simp)⟩, ?_⟩
  intro nid
  unfold contiguous posList novelChapters
  rw [h]
  exact List.Perm.refl _

theorem specOrderingIdx_cons (k : Nat) (ch : ChapterRow) (rest : List ChapterRow) :
    specOrderingIdx k (ch :: rest)
      = if (match extract_episode_id_from_url ch.source_url with
            | some k2 => decide (k < k2)
            | none => false) then 0
        else 1 + specOrderingIdx k rest := by
  unfold specOrderingIdx
  rw [List.findIdx?_cons]
  cases hP : (match extract_episode_id_from_url ch.source_url with
      | some k2 => decide (k < k2)
      | none => false) with
  | true => simp
  | false =>
    cases hF : rest.findIdx? (fun ch =>
        match extract_episode_id_from_url ch.source_url with
        | some k2 => decide (k < k2)
        | none => false) with
    | none => simp [hF]; omega
    | some j => simp [hF]; omega

theorem specFallbackIdx_cons (q : ℚ) (ch : ChapterRow) (rest : List ChapterRow) :
    specFallbackIdx q (ch :: rest)
      = if q < parse_chapter_number ch.chapter_number then 0
        else 1 + specFallbackIdx q rest := by
  unfold specFallbackIdx
  rw [List.findIdx?_cons]
  by_cases hq : q < parse_chapter_number ch.chapter_number
  · simp [hq]
  · cases hF : rest.findIdx? (fun ch =>
        decide (q < parse_chapter_number ch.chapter_number)) with
    | none => simp [hq, hF]; omega
    | some j => simp [hq, hF]; omega

theorem findInsertIdxEp_eq_spec (k : Nat) (l : List ChapterRow) :
    findInsertIdxEp k l = specOrderingIdx k l := by
  induction l with
  | nil => rfl
  | cons ch rest ih =>
    unfold findInsertIdxEp
    rw [specOrderingIdx_cons]
    cases hE : extract_episode_id_from_url ch.source_url with
    | none => simp [ih]
    | some k2 =>
      by_cases hk : k < k2
      · simp [hk]
      · simp [hk, ih]

theorem findInsertIdxNum_eq_spec (q : ℚ) (l : List ChapterRow) :
    findInsertIdxNum q l = specFallbackIdx q l := by
  induction l with
  | nil => rfl
  | cons ch rest ih =>
    unfold findInsertIdxNum
    rw [specFallbackIdx_cons]
    by_cases hq : q < parse_chapter_number ch.chapter_number
    · simp [hq]
    · simp [hq, ih]

/-- C1 (amended): for every novel and every finite sequence of completed
inserts that carry no explicit caller position and deletes, run from a
well-formed store in which every novel's positions are contiguous, every
quiescent state again gives each novel's `N` chapters exactly the positions
`{0, ..., N-1}` — no gaps, no duplicates.  (The claim as frozen also covers
inserts with an explicit caller position; those are refuted by the
counterexample, since the code persists an explicit position verbatim with no
shifting.) -/
theorem add_delete_sequences_contiguous (db : DB) (ops : List Op) (nid : Nat)
    (hInv : Inv db) (hops : ∀ op ∈ ops, noExplicitPos op) :
    contiguous (runOps db ops) nid :=
  (runOps_preserves_Inv db ops hInv hops).2 nid

/-- C1 counterexample: from a valid store holding an empty novel, one completed
`add_chapter_atomic` call with explicit caller position `5` commits and leaves
the novel's single chapter at position `5`, so the position set is `{5}`,
not `{0}`. -/
theorem add_explicit_position_violates_contiguity :
    Inv dbOneNovel
      ∧ ¬ contiguous
          (runOps dbOneNovel
            [Op.add "u" "n"
              { slug := "x", chapter_number := none, source_url := none,
                position := some 5 }]) 1 :=
  ⟨Inv_of_no_chapters dbOneNovel rfl, by decide⟩

/-- Witness for C1 at a concrete run: two sequenced inserts then a delete. -/
theorem add_delete_sequences_contiguous_witness :
    (Inv dbOneNovel
        ∧ ∀ op ∈ ([Op.add "u" "n" (cdEp 100 "a"), Op.add "u" "n" (cdEp 300 "b"),
            Op.del "u" "n" 0 "asc"] : List Op), noExplicitPos op)
      ∧ contiguous
          (runOps dbOneNovel [Op.add "u" "n" (cdEp 100 "a"), Op.add "u" "n" (cdEp 300 "b"),
            Op.del "u" "n" 0 "asc"]) 1 :=
  ⟨⟨Inv_of_no_chapters dbOneNovel rfl, by decide⟩,
    add_delete_sequences_contiguous dbOneNovel _ 1 (Inv_of_no_chapters dbOneNovel rfl)
      (by decide)⟩

/-- C9: when no novel with the given owner and slug exists,
`add_chapter_atomic` fails with the not-found error and the store is unchanged
— no chapter row is created or modified.  (Locks are transaction-scoped and
the transaction ends here; the row lock was never acquired because no novel
row matched the `FOR UPDATE` query.) -/
theorem add_missing_novel_fails_unchanged (uid slug : String) (cd : ChapterData) (db : DB)
    (h : findNovel db uid slug = none) :
    add_chapter_atomic uid slug cd db = Except.error ("Novel not found: " ++ slug)
      ∧ runAdd uid slug cd db = db := by
  refine ⟨add_notfound uid slug cd db h, ?_⟩
  unfold runAdd
  rw [add_notfound uid slug cd db h]

/-- Witness for C9 on an empty store. -/
theorem add_missing_novel_fails_unchanged_witness :
    findNovel dbNoNovels "u" "n" = none
      ∧ (add_chapter_atomic "u" "n" (cdEp 1 "a") dbNoNovels
            = Except.error ("Novel not found: " ++ "n")
          ∧ runAdd "u" "n" (cdEp 1 "a") dbNoNovels = dbNoNovels) :=
  ⟨by decide, add_missing_novel_fails_unchanged "u" "n" (cdEp 1 "a") dbNoNovels (by decide)⟩

/-- C2: with no explicit position and a URL carrying an episode id, the chosen
insertion index is the spec's scan — the index of the first existing chapter
(in ascending position order) with a defined, strictly greater episode id,
skipping undefined ones, else the chapter count (append; `0` for an empty
novel).  Concretely, inserting key `400` into `[100, 300, 500]` returns
index `2` and the post-insert key order is `[100, 300, 400, 500]`. -/
theorem sequenced_index_first_greater_key :
    (∀ (cd : ChapterData) (k : Nat) (existing : List ChapterRow),
        extract_episode_id_from_url cd.source_url = some k →
        computeInsertPos cd existing = specOrderingIdx k existing)
    ∧ addIndex (add_chapter_atomic "u" "n" (cdEp 400 "d") dbThreeEp) = some 2
    ∧ (sortByPosAsc (novelChapters (runAdd "u" "n" (cdEp 400 "d") dbThreeEp) 1)).map
        (fun c => extract_episode_id_from_url c.source_url)
      = [some 100, some 300, some 400, some 500] := by
  refine ⟨?_, by decide, by decide⟩
  intro cd k existing hk
  unfold computeInsertPos
  rw [hk]
  exact findInsertIdxEp_eq_spec k existing

/-- Witness for C2's general scan rule at key `400` over the `[100, 300, 500]`
state. -/
theorem sequenced_index_first_greater_key_witness :
    extract_episode_id_from_url (cdEp 400 "d").source_url = some 400
      ∧ computeInsertPos (cdEp 400 "d") (sortByPosAsc (novelChapters dbThreeEp 1))
          = specOrderingIdx 400 (sortByPosAsc (novelChapters dbThreeEp 1)) :=
  ⟨by decide, sequenced_index_first_greater_key.1 (cdEp 400 "d") 400 _ (by decide)⟩

theorem findInsertIdxNum_sentinel (existing : List ChapterRow)
    (hall : ∀ ch ∈ existing, parse_chapter_number ch.chapter_number < 999999) :
    findInsertIdxNum 999999 existing = existing.length := by
  induction existing with
  | nil => rfl
  | cons ch rest ih =>
    unfold findInsertIdxNum
    have h1 : ¬ ((999999 : ℚ) < parse_chapter_number ch.chapter_number) :=
      lt_asymm (hall ch (List.mem_cons_self _ _))
    rw [if_neg h1, ih (fun c hc => hall c (List.mem_cons_of_mem _ hc)), List.length_cons]
    omega

/-- C7: with no ordering key, the insertion index is the same
first-strictly-greater scan over `parse_chapter_number` values, where missing,
`'BONUS'`, or unparsable chapter numbers compare as the sentinel `999999.0`;
consequently a new chapter with no ordering key and chapter number `'BONUS'`
is appended whenever every existing chapter's parsed number is below the
sentinel, regardless of arrival order. -/
theorem fallback_scan_and_sentinel :
    (parse_chapter_number none = 999999
      ∧ parse_chapter_number (some "BONUS") = 999999
      ∧ ∀ s : String, pyFloat s = none → parse_chapter_number (some s) = 999999)
    ∧ (∀ (cd : ChapterData) (existing : List ChapterRow),
        extract_episode_id_from_url cd.source_url = none →
        computeInsertPos cd existing
          = specFallbackIdx (parse_chapter_number cd.chapter_number) existing)
    ∧ (∀ (cd : ChapterData) (existing : List ChapterRow),
        extract_episode_id_from_url cd.source_url = none →
        cd.chapter_number = some "BONUS" →
        (∀ ch ∈ existing, parse_chapter_number ch.chapter_number < 999999) →
        computeInsertPos cd existing = existing.length) := by
  refine ⟨⟨rfl, by decide, ?_⟩, ?_, ?_⟩
  · intro s h
    show (if s.isEmpty then (999999 : ℚ)
      else if s = "BONUS" then 999999
      else match pyFloat s with
        | some q => q
        | none => 999999) = 999999
    by_cases he : s.isEmpty
    · rw [if_pos he]
    · rw [if_neg he]
      by_cases hb : s = "BONUS"
      · rw [if_pos hb]
      · rw [if_neg hb, h]
  · intro cd existing h
    unfold computeInsertPos
    rw [h]
    exact findInsertIdxNum_eq_spec _ existing
  · intro cd existing hE hB hall
    unfold computeInsertPos
    rw [hE]
    have hq : parse_chapter_number cd.chapter_number = 999999 := by
      rw [hB]
      decide
    rw [hq]
    exact findInsertIdxNum_sentinel existing hall

/-- Witness for C7's sentinel-append rule over numeric chapters `["1", "2"]`. -/
theorem fallback_scan_and_sentinel_witness :
    (extract_episode_id_from_url
        (({ slug := "b", chapter_number := some "BONUS", source_url := some "x",
            position := none } : ChapterData)).source_url = none
      ∧ ({ slug := "b", chapter_number := some "BONUS", source_url := some "x",
            position := none } : ChapterData).chapter_number = some "BONUS"
      ∧ (∀ ch ∈ [chNum 1 "1" 0, chNum 2 "2" 1],
          parse_chapter_number ch.chapter_number < 999999))
    ∧ computeInsertPos
        { slug := "b", chapter_number := some "BONUS", source_url := some "x",
          position := none }
        [chNum 1 "1" 0, chNum 2 "2" 1]
      = ([chNum 1 "1" 0, chNum 2 "2" 1] : List ChapterRow).length :=
  ⟨⟨by decide, rfl, by decide⟩,
    fallback_scan_and_sentinel.2.2
      { slug := "b", chapter_number := some "BONUS", source_url := some "x",
        position := none }
      [chNum 1 "1" 0, chNum 2 "2" 1] (by decide) rfl (by decide)⟩

/-- Position-blind row predicates pass through the two-pass shift unchanged. -/
theorem shiftTwoPass_filter_empty (db : DB) (nid ip : Nat) (q : ChapterRow → Bool)
    (hq : ∀ (c : ChapterRow) (p : Int), q { c with position := p } = q c)
    (h : db.chapters.filter q = []) :
    (shiftTwoPass db nid ip).chapters.filter q = [] := by
  unfold shiftTwoPass
  simp only
  rw [filter_map_of_pres _ q _ (fun x => by
      by_cases hx : ((sortByPosDesc (db.chapters.filter (shiftPred nid ip))).map
          (fun c => c.id)).contains x.id
      · simp only [hx, if_true]
        exact hq x _
      · simp only [hx, Bool.false_eq_true, if_false]),
    filter_map_of_pres _ q _ (fun x => by
      by_cases hx : ((sortByPosDesc (db.chapters.filter (shiftPred nid ip))).map
          (fun c => c.id)).contains x.id
      · simp only [hx, if_true]
        exact hq x _
      · simp only [hx, Bool.false_eq_true, if_false]), h]
  rfl

theorem seqAndShift_novels (db : DB) (nid : Nat) (cd : ChapterData) :
    (seqAndShift db nid cd).1.novels = db.novels := by
  unfold seqAndShift
  by_cases h : computeInsertPos cd (sortByPosAsc (novelChapters db nid))
      < (sortByPosAsc (novelChapters db nid)).length
  · simp only [if_pos h]
    rfl
  · simp only [if_neg h]

/-- A successful insert (novel found, no duplicate) leaves the novels table
unchanged and a single row of the novel carrying the payload's `source_url`,
at the reported index.  Needs no well-formedness: field-preserving maps
suffice. -/
theorem add_ok_creates_row (uid slug : String) (cd : ChapterData) (db db1 : DB)
    (r1 : AddResult) (n : NovelRow)
    (hfind : findNovel db uid slug = some n)
    (htr : truthy cd.source_url = true)
    (hdup : dupCheck db n.id cd = none)
    (h1 : add_chapter_atomic uid slug cd db = Except.ok (db1, r1)) :
    db1.novels = db.novels
    ∧ ∃ newc : ChapterRow,
        newc.position = r1.chapter_index
        ∧ db1.chapters.filter
            (fun c => c.novel_id == n.id && c.source_url == cd.source_url) = [newc] := by
  have hfe : db.chapters.filter
      (fun c => c.novel_id == n.id && c.source_url == cd.source_url) = [] := by
    have hthis := hdup
    unfold dupCheck at hthis
    rw [htr] at hthis
    simp only [if_true] at hthis
    exact List.head?_eq_none_iff.mp hthis
  have hnewcq : ∀ (dbX : DB) (pos : Int),
      (fun c => c.novel_id == n.id && c.source_url == cd.source_url)
        (insertRow dbX n.id cd pos).2 = true := by
    intro dbX pos
    simp [insertRow]
  simp only [add_chapter_atomic, hfind, hdup] at h1
  split at h1
  · simp only [Except.ok.injEq, Prod.mk.injEq] at h1
    obtain ⟨hdb, hr⟩ := h1
    cases hposc : cd.position with
    | some p =>
      simp only [hposc] at hdb hr
      refine ⟨by rw [← hdb]; rfl, (insertRow db n.id cd p).2, ?_, ?_⟩
      · rw [← hr]
        rfl
      · rw [← hdb]
        show ((db.chapters ++ [(insertRow db n.id cd p).2]).filter _) = _
        rw [List.filter_append, hfe, List.nil_append, List.filter_cons,
          if_pos (hnewcq db p), List.filter_nil]
    | none =>
      simp only [hposc] at hdb hr
      have hbase : (seqAndShift db n.id cd).1.chapters.filter
          (fun c => c.novel_id == n.id && c.source_url == cd.source_url) = [] := by
        unfold seqAndShift
        by_cases hlt : computeInsertPos cd (sortByPosAsc (novelChapters db n.id))
            < (sortByPosAsc (novelChapters db n.id)).length
        · simp only [if_pos hlt]
          exact shiftTwoPass_filter_empty db n.id _ _ (fun c p => rfl) hfe
        · simp only [if_neg hlt]
          exact hfe
      refine ⟨by rw [← hdb]; exact seqAndShift_novels db n.id cd,
        (insertRow (seqAndShift db n.id cd).1 n.id cd (seqAndShift db n.id cd).2).2, ?_, ?_⟩
      · rw [← hr]
        rfl
      · rw [← hdb]
        show (((seqAndShift db n.id cd).1.chapters
            ++ [(insertRow (seqAndShift db n.id cd).1 n.id cd (seqAndShift db n.id cd).2).2]).filter _)
          = _
        rw [List.filter_append, hbase, List.nil_append, List.filter_cons,
          if_pos (hnewcq _ _), List.filter_nil]
  · exact absurd h1 (by simp)

theorem Inv_single_chapter (db : DB) (c : ChapterRow) (hch : db.chapters = [c])
    (hpos : c.position = 0) (hid : c.id < db.next_chapter_id) : Inv db := by
  refine ⟨⟨?_, ?_⟩, ?_⟩
  · rw [hch]
    simp
  · intro x hx
    rw [hch] at hx
    rw [List.mem_singleton.mp hx]
    exact hid
  · intro nid
    unfold contiguous posList novelChapters
    rw [hch]
    by_cases hn : (c.novel_id == nid) = true
    · rw [List.filter_cons, if_pos hn, List.filter_nil]
      have hr1 : List.range 1 = [0] := rfl
      simp only [List.map_cons, List.map_nil, List.length_cons, List.length_nil,
        hr1, hpos, castI]
      exact List.Perm.refl _
    · rw [List.filter_cons, if_neg hn, List.filter_nil]
      exact List.Perm.refl _

/-- C10: when `source_url` is missing, `None`, or the empty string (falsy), the
duplicate check is skipped entirely: no call ever reports
`already_exists = true`, and — when the novel exists, no explicit position is
supplied, and the store is in its quiescent invariant — the call inserts a new
chapter row even if other chapters with an equally absent source identifier
already exist under the same novel. -/
theorem falsy_url_skips_dup_check (uid slug : String) (cd : ChapterData) (db : DB)
    (htr : truthy cd.source_url = false) :
    (∀ db2 r, add_chapter_atomic uid slug cd db = Except.ok (db2, r) →
        r.already_exists = false)
    ∧ (∀ n : NovelRow, findNovel db uid slug = some n → cd.position = none → Inv db →
        ∃ db2 r, add_chapter_atomic uid slug cd db = Except.ok (db2, r)
          ∧ r.already_exists = false
          ∧ (novelChapters db2 n.id).length = (novelChapters db n.id).length + 1) := by
  have hdupall : ∀ nid, dupCheck db nid cd = none := by
    intro nid
    unfold dupCheck
    rw [htr]
    rfl
  constructor
  · intro db2 r h
    cases hfind : findNovel db uid slug with
    | none =>
      rw [add_notfound uid slug cd db hfind] at h
      exact absurd h (by simp)
    | some n =>
      simp only [add_chapter_atomic, hfind, hdupall n.id] at h
      split at h
      · simp only [Except.ok.injEq, Prod.mk.injEq] at h
        rw [← h.2]
      · exact absurd h (by simp)
  · intro n hfind hposc hInv
    obtain ⟨db2, r, heq, hae, _, _, _, _, _, hlen, _, _⟩ :=
      add_insert_spec uid slug cd db n hfind (hdupall n.id) hposc hInv.1 (hInv.2 n.id)
    exact ⟨db2, r, heq, hae, hlen⟩

/-- Witness for C10: inserting a second `source_url`-less chapter into a novel
that already has one. -/
theorem falsy_url_skips_dup_check_witness :
    (truthy cdNull.source_url = false
      ∧ findNovel dbNullUrl "u" "n" = some ⟨1, "u", "n"⟩
      ∧ cdNull.position = none)
    ∧ (∃ db2 r, add_chapter_atomic "u" "n" cdNull dbNullUrl = Except.ok (db2, r)
        ∧ r.already_exists = false
        ∧ (novelChapters db2 ((1 : Nat))).length = (novelChapters dbNullUrl 1).length + 1) :=
  ⟨⟨by decide, by decide, rfl⟩,
    (falsy_url_skips_dup_check "u" "n" cdNull dbNullUrl (by decide)).2 ⟨1, "u", "n"⟩
      (by decide) rfl
      (Inv_single_chapter dbNullUrl rowNullUrl rfl rfl (by decide))⟩

/-- C4: after a first `add_chapter_atomic` call with a truthy `source_url`
commits an actual insert (`already_exists = false`), calling it again with the
same payload succeeds with `already_exists = true`, returns the stored
chapter's position, and leaves the store — chapter count and every position —
exactly unchanged. -/
theorem add_idempotent_for_source_url (uid slug : String) (cd : ChapterData) (db db1 : DB)
    (r1 : AddResult)
    (htr : truthy cd.source_url = true)
    (h1 : add_chapter_atomic uid slug cd db = Except.ok (db1, r1))
    (hfresh : r1.already_exists = false) :
    ∃ r2, add_chapter_atomic uid slug cd db1 = Except.ok (db1, r2)
      ∧ r2.success = true ∧ r2.already_exists = true
      ∧ r2.chapter_index = r1.chapter_index := by
  cases hfind : findNovel db uid slug with
  | none =>
    rw [add_notfound uid slug cd db hfind] at h1
    exact absurd h1 (by simp)
  | some n =>
    cases hdup : dupCheck db n.id cd with
    | some ex =>
      rw [add_dup uid slug cd db n ex hfind hdup] at h1
      simp only [Except.ok.injEq, Prod.mk.injEq] at h1
      rw [← h1.2] at hfresh
      simp at hfresh
    | none =>
      obtain ⟨hnov, newc, hidx, hfilter⟩ :=
        add_ok_creates_row uid slug cd db db1 r1 n hfind htr hdup h1
      have hfind1 : findNovel db1 uid slug = some n := by
        unfold findNovel at hfind ⊢
        rw [hnov]
        exact hfind
      have hdup1 : dupCheck db1 n.id cd = some newc := by
        unfold dupCheck
        rw [htr]
        simp only [if_true, hfilter]
        rfl
      exact ⟨_, add_dup uid slug cd db1 n newc hfind1 hdup1, rfl, rfl, hidx⟩

/-- Witness for C4: re-importing the same URL right after its first import. -/
theorem add_idempotent_for_source_url_witness :
    (truthy (cdEp 100 "a").source_url = true
      ∧ add_chapter_atomic "u" "n" (cdEp 100 "a") dbOneNovel
          = Except.ok (dbAfterFirst,
              { success := true, already_exists := false, chapter_index := 0,
                chapter_id := 1 })
      ∧ ({ success := true, already_exists := false, chapter_index := 0,
            chapter_id := 1 } : AddResult).already_exists = false)
    ∧ ∃ r2, add_chapter_atomic "u" "n" (cdEp 100 "a") dbAfterFirst
          = Except.ok (dbAfterFirst, r2)
        ∧ r2.success = true ∧ r2.already_exists = true
        ∧ r2.chapter_index
            = ({ success := true, already_exists := false, chapter_index := 0,
                  chapter_id := 1 } : AddResult).chapter_index :=
  ⟨⟨by decide, by rfl, rfl⟩,
    add_idempotent_for_source_url "u" "n" (cdEp 100 "a") dbOneNovel dbAfterFirst _
      (by decide) (by rfl) rfl⟩

/-- Serial composition of sequenced inserts of fresh, pairwise-distinct
source URLs: each one commits a real insert, so the chapter count grows by
one per call and the invariant is maintained. -/
theorem serial_inserts_aux (uid slug : String) (n : NovelRow) (datas : List ChapterData) :
    ∀ db : DB,
      findNovel db uid slug = some n → Inv db →
      (∀ cd ∈ datas, cd.position = none) →
      (∀ cd ∈ datas, truthy cd.source_url = true) →
      ((datas.map (fun cd => cd.source_url)).Nodup) →
      (∀ cd ∈ datas, ∀ c ∈ novelChapters db n.id, ¬ c.source_url = cd.source_url) →
      (novelChapters (datas.foldl (fun d cd => runAdd uid slug cd d) db) n.id).length
          = (novelChapters db n.id).length + datas.length
        ∧ Inv (datas.foldl (fun d cd => runAdd uid slug cd d) db) := by
  induction datas with
  | nil =>
    intro db _ hInv _ _ _ _
    exact ⟨by simp, hInv⟩
  | cons cd rest ih =>
    intro db hfind hInv hpos htr hnd hfresh
    have htrc := htr cd (List.mem_cons_self _ _)
    have hdup : dupCheck db n.id cd = none := by
      have hfe : db.chapters.filter
          (fun c => c.novel_id == n.id && c.source_url == cd.source_url) = [] := by
        rw [List.filter_eq_nil_iff]
        intro c hc hcq
        have h1 := (Bool.and_eq_true _ _).mp hcq
        have hcnov : c ∈ novelChapters db n.id := List.mem_filter.mpr ⟨hc, h1.1⟩
        have hcu : c.source_url = cd.source_url := by simpa using h1.2
        exact hfresh cd (List.mem_cons_self _ _) c hcnov hcu
      unfold dupCheck
      rw [htrc]
      simp [hfe]
    obtain ⟨db2, r, heq, hae, hsucc, hidx, hnov, hWF2, hcont2, hlen2, hother, hurls⟩ :=
      add_insert_spec uid slug cd db n hfind hdup (hpos cd (List.mem_cons_self _ _))
        hInv.1 (hInv.2 n.id)
    have hrun : runAdd uid slug cd db = db2 := by
      unfold runAdd
      rw [heq]
    have hfind2 : findNovel db2 uid slug = some n := by
      unfold findNovel at hfind ⊢
      rw [hnov]
      exact hfind
    have hInv2 : Inv db2 := by
      refine ⟨hWF2, fun nid => ?_⟩
      by_cases hne : nid = n.id
      · rw [hne]; exact hcont2
      · exact contiguous_congr db db2 nid (hother nid hne) (hInv.2 nid)
    have hndrest : (rest.map (fun cd => cd.source_url)).Nodup := by
      have := hnd
      simp only [List.map_cons] at this
      exact (List.nodup_cons.mp this).2
    have hheadfresh : ¬ cd.source_url ∈ rest.map (fun cd => cd.source_url) := by
      have := hnd
      simp only [List.map_cons] at this
      exact (List.nodup_cons.mp this).1
    have hfresh2 : ∀ cd' ∈ rest, ∀ c ∈ novelChapters db2 n.id,
        ¬ c.source_url = cd'.source_url := by
      intro cd' hcd' c hc hceq
      have hcurl : c.source_url
          ∈ cd.source_url :: (novelChapters db n.id).map (fun c => c.source_url) :=
        hurls.mem_iff.mp (List.mem_map_of_mem _ hc)
      rcases List.mem_cons.mp hcurl with hd | htl
      · refine hheadfresh ?_
        rw [← hd, hceq]
        exact List.mem_map_of_mem _ hcd'
      · obtain ⟨c0, hc0, hc0u⟩ := List.mem_map.mp htl
        exact hfresh cd' (List.mem_cons_of_mem _ hcd') c0 hc0 (hc0u.trans hceq)
    have hx := ih db2 hfind2 hInv2 (fun x hx => hpos x (List.mem_cons_of_mem _ hx))
      (fun x hx => htr x (List.mem_cons_of_mem _ hx)) hndrest hfresh2
    rw [List.foldl_cons, hrun]
    refine ⟨?_, hx.2⟩
    rw [hx.1, hlen2, List.length_cons]
    omega

/-- C5: K inserts of pairwise distinct chapters (distinct truthy source URLs,
no explicit positions) into an initially empty novel, executed in an arbitrary
serial order — the per-novel row lock makes every concurrent interleaving
equivalent to such an order — leave exactly K chapters whose positions are
`{0, ..., K-1}`: no duplicates, no lost chapters. -/
theorem concurrent_inserts_serializable (uid slug : String) (db : DB) (n : NovelRow)
    (datas : List ChapterData)
    (hfind : findNovel db uid slug = some n)
    (hInv : Inv db)
    (hempty : novelChapters db n.id = [])
    (hpos : ∀ cd ∈ datas, cd.position = none)
    (htr : ∀ cd ∈ datas, truthy cd.source_url = true)
    (hdistinct : (datas.map (fun cd => cd.source_url)).Nodup) :
    (novelChapters (datas.foldl (fun d cd => runAdd uid slug cd d) db) n.id).length
        = datas.length
      ∧ contiguous (datas.foldl (fun d cd => runAdd uid slug cd d) db) n.id := by
  obtain ⟨h1, h2⟩ := serial_inserts_aux uid slug n datas db hfind hInv hpos htr hdistinct
    (by rw [hempty]; intro cd _ c hc; cases hc)
  refine ⟨?_, h2.2 n.id⟩
  rw [h1, hempty]
  simp

/-- Witness for C5: two distinct chapters into the empty novel, in one of the
serial orders. -/
theorem concurrent_inserts_serializable_witness :
    (findNovel dbOneNovel "u" "n" = some ⟨1, "u", "n"⟩
      ∧ novelChapters dbOneNovel (1 : Nat) = []
      ∧ (∀ cd ∈ [cdEp 300 "a", cdEp 100 "b"], cd.position = none)
      ∧ (∀ cd ∈ [cdEp 300 "a", cdEp 100 "b"], truthy cd.source_url = true)
      ∧ (([cdEp 300 "a", cdEp 100 "b"].map (fun cd => cd.source_url)).Nodup))
    ∧ ((novelChapters
          (([cdEp 300 "a", cdEp 100 "b"]).foldl (fun d cd => runAdd "u" "n" cd d) dbOneNovel)
          (⟨1, "u", "n"⟩ : NovelRow).id).length
        = ([cdEp 300 "a", cdEp 100 "b"] : List ChapterData).length
      ∧ contiguous
          (([cdEp 300 "a", cdEp 100 "b"]).foldl (fun d cd => runAdd "u" "n" cd d) dbOneNovel)
          (⟨1, "u", "n"⟩ : NovelRow).id) :=
  ⟨⟨by rfl, rfl, by decide, by decide, by decide⟩,
    concurrent_inserts_serializable "u" "n" dbOneNovel ⟨1, "u", "n"⟩
      [cdEp 300 "a", cdEp 100 "b"] (by rfl) (Inv_of_no_chapters dbOneNovel rfl) rfl
      (by decide) (by decide) (by decide)⟩

/-- C6: a successful `delete_chapter` removes exactly one chapter — the one
displayed at `chapter_index` — and reassigns the remaining chapters' positions
to `0..N-1` in ascending order of their previous positions, preserving their
relative order; concretely, from positions `[0, 1, 2, 3]` deleting display
index `1` (ascending order) leaves the other three chapters at `[0, 1, 2]` in
their prior relative order. -/
theorem delete_removes_one_and_renormalizes :
    (∀ (uid slug : String) (idx : Nat) (order : String) (db : DB) (n : NovelRow)
      (hfind : findNovel db uid slug = some n) (hWF : WF db)
      (hne : (sortByPosAsc (novelChapters db n.id)).isEmpty = false)
      (hidx : idx < (sort_chapters_by_number
        ((sortByPosAsc (novelChapters db n.id)).map (fun c => some (toView c)))
        order).length),
      ∃ db2 c0,
        delete_chapter uid slug idx order db = (true, db2)
        ∧ c0 ∈ novelChapters db n.id
        ∧ toView c0 = (sort_chapters_by_number
            ((sortByPosAsc (novelChapters db n.id)).map (fun c => some (toView c)))
            order).get ⟨idx, hidx⟩
        ∧ (novelChapters db2 n.id).length = (novelChapters db n.id).length - 1
        ∧ (∀ nid, nid ≠ n.id → novelChapters db2 nid = novelChapters db nid)
        ∧ (sortByPosAsc (novelChapters db2 n.id)).map (fun c => c.id)
            = (sortByPosAsc ((novelChapters db n.id).eraseP
                (fun c => c.id == c0.id))).map (fun c => c.id)
        ∧ (sortByPosAsc (novelChapters db2 n.id)).map (fun c => c.position)
            = (List.range ((novelChapters db n.id).length - 1)).map castI)
    ∧ ((delete_chapter "u" "n" 1 "asc" dbFour).1 = true
        ∧ (sortByPosAsc (novelChapters (delete_chapter "u" "n" 1 "asc" dbFour).2 1)).map
            (fun c => (c.id, c.position)) = [(1, 0), (3, 1), (4, 2)]) := by
  constructor
  · intro uid slug idx order db n hfind hWF hne hidx
    obtain ⟨db2, c0, hdel, hc0mem, hc0view, _, _, hlen, hother, hids, hpos⟩ :=
      delete_chapter_spec uid slug idx order db n hfind hWF hne hidx
    exact ⟨db2, c0, hdel, hc0mem, hc0view, hlen, hother, hids, hpos⟩
  · exact ⟨by rfl, by rfl⟩

/-- Witness for C6's general statement on the `[0, 1, 2, 3]` store. -/
theorem delete_removes_one_and_renormalizes_witness :
    (findNovel dbFour "u" "n" = some ⟨1, "u", "n"⟩
      ∧ (sortByPosAsc (novelChapters dbFour (⟨1, "u", "n"⟩ : NovelRow).id)).isEmpty = false
      ∧ WF dbFour)
    ∧ ∃ db2 c0,
        delete_chapter "u" "n" 1 "asc" dbFour = (true, db2)
        ∧ c0 ∈ novelChapters dbFour (⟨1, "u", "n"⟩ : NovelRow).id
        ∧ toView c0 = (sort_chapters_by_number
            ((sortByPosAsc (novelChapters dbFour (⟨1, "u", "n"⟩ : NovelRow).id)).map
              (fun c => some (toView c))) "asc").get ⟨1, by decide⟩
        ∧ (novelChapters db2 (⟨1, "u", "n"⟩ : NovelRow).id).length
            = (novelChapters dbFour (⟨1, "u", "n"⟩ : NovelRow).id).length - 1
        ∧ (∀ nid, nid ≠ (⟨1, "u", "n"⟩ : NovelRow).id →
            novelChapters db2 nid = novelChapters dbFour nid)
        ∧ (sortByPosAsc (novelChapters db2 (⟨1, "u", "n"⟩ : NovelRow).id)).map
              (fun c => c.id)
            = (sortByPosAsc ((novelChapters dbFour (⟨1, "u", "n"⟩ : NovelRow).id).eraseP
                (fun c => c.id == c0.id))).map (fun c => c.id)
        ∧ (sortByPosAsc (novelChapters db2 (⟨1, "u", "n"⟩ : NovelRow).id)).map
              (fun c => c.position)
            = (List.range ((novelChapters dbFour (⟨1, "u", "n"⟩ : NovelRow).id).length - 1)).map
                castI :=
  ⟨⟨by rfl, by rfl, by decide⟩,
    delete_removes_one_and_renormalizes.1 "u" "n" 1 "asc" dbFour ⟨1, "u", "n"⟩
      (by rfl) (by decide) (by rfl) (by decide)⟩

/-- C8 counterexample: with two chapters sharing position `0`, the ascending
view is not the reverse of the descending view — Python's `sorted` is stable
in both directions, so both views list the tied chapters in input order. -/
theorem sort_view_reverse_fails_on_ties :
    ¬ (sort_chapters_by_number [some ⟨1, some 0⟩, some ⟨2, some 0⟩] "asc"
        = (sort_chapters_by_number [some ⟨1, some 0⟩, some ⟨2, some 0⟩] "desc").reverse) := by
  decide

/-- C8 (amended): `sort_chapters_by_number` is pure — its output is a
permutation of the non-`None` inputs, each chapter record (its stored
`position` included) unchanged, so calling any view, the descending one twice
in a row included, never changes stored positions — and whenever the position
keys are pairwise distinct the ascending view equals the reverse of the
descending view.  (Equal keys break the reverse identity, as the
counterexample shows.) -/
theorem sort_view_pure_and_reverse (chapters : List (Option ChapterDict)) (order : String) :
    (sort_chapters_by_number chapters order).Perm (chapters.filterMap id)
    ∧ (((chapters.filterMap id).map posKey).Nodup →
        sort_chapters_by_number chapters "asc"
          = (sort_chapters_by_number chapters "desc").reverse) := by
  constructor
  · unfold sort_chapters_by_number
    by_cases ho : (order == "desc") = true
    · rw [if_pos ho]
      exact List.perm_insertionSort _ _
    · rw [if_neg ho]
      exact List.perm_insertionSort _ _
  · intro hnd
    unfold sort_chapters_by_number
    rw [if_neg (by decide), if_pos (by decide)]
    letI : IsTotal ChapterDict (fun a b => posKey a ≤ posKey b) := ⟨fun a b => le_total _ _⟩
    letI : IsTrans ChapterDict (fun a b => posKey a ≤ posKey b) :=
      ⟨fun a b c h1 h2 => le_trans h1 h2⟩
    letI : IsTotal ChapterDict (fun a b => posKey b ≤ posKey a) := ⟨fun a b => le_total _ _⟩
    letI : IsTrans ChapterDict (fun a b => posKey b ≤ posKey a) :=
      ⟨fun a b c h1 h2 => le_trans h2 h1⟩
    refine sorted_perm_unique posKey _ _ ?_ ?_ ?_ ?_
    · exact (List.perm_insertionSort _ _).trans
        ((List.perm_insertionSort _ _).symm.trans (List.reverse_perm _).symm)
    · exact List.sorted_insertionSort _ _
    · exact (List.pairwise_reverse).mpr (List.sorted_insertionSort _ _)
    · exact ((List.perm_insertionSort _ _).map posKey).nodup_iff.mpr hnd

/-- Witness for C8 on distinct position keys. -/
theorem sort_view_pure_and_reverse_witness :
    ((([some ⟨1, some 1⟩, some ⟨2, some 0⟩] : List (Option ChapterDict)).filterMap id).map
        posKey).Nodup
      ∧ ((sort_chapters_by_number [some ⟨1, some 1⟩, some ⟨2, some 0⟩] "asc").Perm
          (([some ⟨1, some 1⟩, some ⟨2, some 0⟩] : List (Option ChapterDict)).filterMap id)
        ∧ sort_chapters_by_number [some ⟨1, some 1⟩, some ⟨2, some 0⟩] "asc"
            = (sort_chapters_by_number [some ⟨1, some 1⟩, some ⟨2, some 0⟩] "desc").reverse) :=
  ⟨by decide,
    ⟨(sort_view_pure_and_reverse [some ⟨1, some 1⟩, some ⟨2, some 0⟩] "asc").1,
      (sort_view_pure_and_reverse [some ⟨1, some 1⟩, some ⟨2, some 0⟩] "asc").2 (by decide)⟩⟩

end LunaFrost
